import Mathlib

/-!
A verification development for the subtitle-parse pipeline.

Python strings are modelled as `List Char`; Python `None` / pandas `NaN`
string values are modelled with `Option`.  Regex-based substitutions are
translated to explicit recursive functions over character lists:

* `re.sub(r'(\w)\1+', r'\1', t)` — `collapseWordRuns` (a maximal run of one
  repeated word character collapses to a single copy; `isWordChar` is the
  ASCII restriction of Python's `\w`);
* `t.replace("xx", "x")` — `replaceDouble` (left-to-right, non-overlapping);
* `re.sub(r',+', ',', t)` — `collapseCommas`;
* `re.sub(r'\s+', ' ', t)` followed by `.strip()` — `collapseSpaces` then
  `stripChars` (`Char.isWhitespace` models `\s`);
* `t.split('\n')` — `splitNl`; `'\n'.join(l)` — `joinNl`;
* `' '.join(t.split())` — `joinSpace (splitWs t)`.
-/

def isWordChar (c : Char) : Bool :=
  c.isAlphanum || c = '_'

def isWS (c : Char) : Bool :=
  c.isWhitespace

/-- Helper loop for `collapseWordRuns`: `prev` is the last character kept;
a character equal to `prev` is dropped when `prev` is a word character. -/
def cwrGo (prev : Char) : List Char → List Char
  | [] => []
  | d :: rest =>
    if d = prev && isWordChar prev then cwrGo prev rest
    else d :: cwrGo d rest

/-- Model of `re.sub(r'(\w)\1+', r'\1', t)`: a maximal run of a repeated
word character is replaced by one copy; all other characters pass through. -/
def collapseWordRuns : List Char → List Char
  | [] => []
  | c :: rest => c :: cwrGo c rest

/-- Model of Python `t.replace(str([c, c]), str([c]))`: left-to-right,
non-overlapping replacement of the doubled character by a single one. -/
def replaceDouble (c : Char) : List Char → List Char
  | x :: y :: rest =>
    if x = c && y = c then c :: replaceDouble c rest
    else x :: replaceDouble c (y :: rest)
  | l => l

/-- Helper loop for `collapseCommas`: a comma following a kept comma is
dropped. -/
def ccGo (prev : Char) : List Char → List Char
  | [] => []
  | d :: rest =>
    if d = ',' && prev = ',' then ccGo prev rest
    else d :: ccGo d rest

/-- Model of `re.sub(r',+', ',', t)`: a maximal run of commas collapses to
a single comma. -/
def collapseCommas : List Char → List Char
  | [] => []
  | c :: rest => c :: ccGo c rest

/-- Helper loop for `collapseSpaces`: `prevWS` records whether the previous
character was whitespace (in which case further whitespace is dropped);
the first whitespace character of a run is emitted as a single space. -/
def csGo : Bool → List Char → List Char
  | _, [] => []
  | true, d :: rest =>
    if isWS d then csGo true rest else d :: csGo false rest
  | false, d :: rest =>
    if isWS d then ' ' :: csGo true rest else d :: csGo false rest

/-- Model of `re.sub(r'\s+', ' ', t)`: a maximal whitespace run is replaced
by a single space. -/
def collapseSpaces (l : List Char) : List Char :=
  csGo false l

/-- Model of Python `t.strip()`: drop leading and trailing whitespace. -/
def stripChars (l : List Char) : List Char :=
  ((l.dropWhile isWS).reverse.dropWhile isWS).reverse

/-- `clean_text` of `src/title_whit_lines.py` (string branch; identical to
`limpiar_texto` of `src/utils/pdf_proccesor_v2.py` and `clean_text` of
`src/pdf_to_parquet.py`): collapse repeated word characters, replace
doubled `-` `:` `.`, collapse comma runs, collapse whitespace and strip. -/
def clean_text (t : List Char) : List Char :=
  stripChars (collapseSpaces (collapseCommas
    (replaceDouble '.' (replaceDouble ':' (replaceDouble '-' (collapseWordRuns t))))))

/-- `clean_text` including the `pd.isna` branch: null input passes through. -/
def clean_text_opt : Option (List Char) → Option (List Char)
  | none => none
  | some t => some (clean_text t)

/-- Model of Python `t.split('\n')` (note `''.split('\n') == ['']`). -/
def splitNl : List Char → List (List Char)
  | [] => [[]]
  | c :: rest =>
    if c = '\n' then [] :: splitNl rest
    else
      match splitNl rest with
      | [] => [[c]]
      | p :: ps => (c :: p) :: ps

/-- Model of Python `'\n'.join(parts)`. -/
def joinNl (parts : List (List Char)) : List Char :=
  match parts with
  | [] => []
  | p :: ps => p ++ (ps.flatMap (fun q => '\n' :: q))

/-- Split at every single whitespace character (the analogue of `splitNl`
for whitespace). -/
def splitWsChar : List Char → List (List Char)
  | [] => [[]]
  | c :: rest =>
    if isWS c then [] :: splitWsChar rest
    else
      match splitWsChar rest with
      | [] => [[c]]
      | p :: ps => (c :: p) :: ps

/-- Model of Python `t.split()` (split on whitespace runs, dropping empty
pieces). -/
def splitWs (t : List Char) : List (List Char) :=
  (splitWsChar t).filter (fun p => !p.isEmpty)

/-- Model of Python `' '.join(parts)`. -/
def joinSpace (parts : List (List Char)) : List Char :=
  match parts with
  | [] => []
  | p :: ps => p ++ (ps.flatMap (fun q => ' ' :: q))

/-- `clean_text` of `src/masive_async_convert_pdf_parquet.py`: collapse
repeated word characters, then an identity `str.translate` table (each of
`-` `:` `.` `,` maps to itself, so it is a no-op), then
`' '.join(text.split())`. -/
def clean_text_masive (t : List Char) : List Char :=
  joinSpace (splitWs (collapseWordRuns t))

/-- `clean_text` of `src/masive_async_pdf_outline_extractor.py`: empty or
null text maps to the empty string, otherwise `' '.join(text.split())`. -/
def clean_text_outline (t : List Char) : List Char :=
  if t = [] then [] else joinSpace (splitWs t)

/-- `clean_duplicate_characters` of `src/list_duplicate_content.py`
(string branch): fold the replacement table over the content in dict
order `--` `,,` `..` `;;` `::` `°°` `//`. -/
def clean_duplicate_characters (t : List Char) : List Char :=
  (['-', ',', '.', ';', ':', '°', '/'].foldl (fun acc c => replaceDouble c acc) t)

/-- `clean_duplicate_characters` including the `pd.isna` branch. -/
def clean_duplicate_characters_opt : Option (List Char) → Option (List Char)
  | none => none
  | some t => some (clean_duplicate_characters t)

/-- The consecutive-duplicate dropping loop of `remove_consecutive_duplicates`
(`previous_line` starts as `None`). -/
def dedupLoop (prev : Option (List Char)) : List (List Char) → List (List Char)
  | [] => []
  | x :: xs =>
    if some x = prev then dedupLoop prev xs
    else x :: dedupLoop (some x) xs

/-- `remove_consecutive_duplicates` of `src/list_duplicate_content.py`
(string branch): split on newlines, drop each line equal to its immediate
predecessor, rejoin. -/
def remove_consecutive_duplicates (t : List Char) : List Char :=
  joinNl (dedupLoop none (splitNl t))

/-- `remove_consecutive_duplicates` including the `pd.isna` branch. -/
def remove_consecutive_duplicates_opt : Option (List Char) → Option (List Char)
  | none => none
  | some t => some (remove_consecutive_duplicates t)

/-- `find_duplicate_lines` of `src/list_duplicate_content.py` (string
branch): true when some line equals its immediate successor. -/
def find_duplicate_lines (t : List Char) : Bool :=
  let lines := splitNl t
  (List.range (lines.length - 1)).any
    (fun i => lines.getD i [] = lines.getD (i + 1) [])

/-! ### Properties of `splitNl`, `joinNl` and `dedupLoop` -/

theorem splitNl_ne_nil (t : List Char) : splitNl t ≠ [] := by
  induction t with
  | nil => simp [splitNl]
  | cons c rest ih =>
    simp only [splitNl]
    split
    · simp
    · cases h : splitNl rest with
      | nil => simp
      | cons p ps => simp

theorem nl_not_mem_of_mem_splitNl {t : List Char} {p : List Char}
    (hp : p ∈ splitNl t) : '\n' ∉ p := by
  induction t generalizing p with
  | nil =>
    simp only [splitNl, List.mem_singleton] at hp
    simp [hp]
  | cons c rest ih =>
    simp only [splitNl] at hp
    split at hp
    · rcases List.mem_cons.mp hp with h | h
      · simp [h]
      · exact ih h
    · rename_i hc
      cases h : splitNl rest with
      | nil => exact absurd h (splitNl_ne_nil rest)
      | cons q qs =>
        rw [h] at hp
        rcases List.mem_cons.mp hp with h2 | h2
        · subst h2
          intro hmem
          rcases List.mem_cons.mp hmem with h3 | h3
          · exact hc h3.symm
          · exact ih (h ▸ List.mem_cons_self q qs) h3
        · exact ih (h ▸ List.mem_cons_of_mem q h2)

theorem splitNl_of_no_nl {p : List Char} (hp : '\n' ∉ p) : splitNl p = [p] := by
  induction p with
  | nil => simp [splitNl]
  | cons c rest ih =>
    have hc : ¬(c = '\n') := fun h => hp (h ▸ List.mem_cons_self c rest)
    have hrest : '\n' ∉ rest := fun h => hp (List.mem_cons_of_mem c h)
    simp only [splitNl, hc, if_false, ih hrest]

theorem splitNl_append_nl {p : List Char} (rest : List Char) (hp : '\n' ∉ p) :
    splitNl (p ++ '\n' :: rest) = p :: splitNl rest := by
  induction p with
  | nil => simp [splitNl]
  | cons c q ih =>
    have hc : ¬(c = '\n') := fun h => hp (h ▸ List.mem_cons_self c q)
    have hq : '\n' ∉ q := fun h => hp (List.mem_cons_of_mem c h)
    simp only [List.cons_append, splitNl, hc, if_false, List.append_eq]
    rw [ih hq]

theorem joinNl_cons₂ (p q : List Char) (ps : List (List Char)) :
    joinNl (p :: q :: ps) = p ++ '\n' :: joinNl (q :: ps) := by
  simp [joinNl, List.flatMap_cons]

theorem splitNl_joinNl {parts : List (List Char)} (hne : parts ≠ [])
    (hnl : ∀ p ∈ parts, '\n' ∉ p) : splitNl (joinNl parts) = parts := by
  induction parts with
  | nil => exact absurd rfl hne
  | cons p ps ih =>
    cases ps with
    | nil =>
      have : joinNl [p] = p := by simp [joinNl]
      rw [this, splitNl_of_no_nl (hnl p (List.mem_cons_self p []))]
    | cons q qs =>
      rw [joinNl_cons₂, splitNl_append_nl _ (hnl p (List.mem_cons_self p _)),
        ih (by simp) (fun r hr => hnl r (List.mem_cons_of_mem p hr))]

theorem mem_dedupLoop {l : List (List Char)} {prev : Option (List Char)}
    {x : List Char} (hx : x ∈ dedupLoop prev l) : x ∈ l := by
  induction l generalizing prev with
  | nil => simp [dedupLoop] at hx
  | cons y ys ih =>
    simp only [dedupLoop] at hx
    split at hx
    · exact List.mem_cons_of_mem y (ih hx)
    · rcases List.mem_cons.mp hx with h | h
      · exact h ▸ List.mem_cons_self y ys
      · exact List.mem_cons_of_mem y (ih h)

theorem dedupLoop_chain (l : List (List Char)) (prev : Option (List Char)) :
    List.Chain' (fun a b => a ≠ b) (dedupLoop prev l) ∧
      ∀ x, (dedupLoop prev l).head? = some x → some x ≠ prev := by
  induction l generalizing prev with
  | nil => simp [dedupLoop]
  | cons y ys ih =>
    simp only [dedupLoop]
    split
    · exact ih prev
    · rename_i hne
      obtain ⟨hchain, hhead⟩ := ih (some y)
      refine ⟨?_, ?_⟩
      · cases h : dedupLoop (some y) ys with
        | nil => simp
        | cons z zs =>
          rw [h] at hchain
          refine List.chain'_cons.mpr ⟨?_, hchain⟩
          have := hhead z (by rw [h]; rfl)
          intro hyz
          exact this (by rw [hyz])
      · intro x hx
        simp only [List.head?_cons, Option.some.injEq] at hx
        subst hx
        exact hne

theorem dedupLoop_id {l : List (List Char)} {prev : Option (List Char)}
    (hchain : List.Chain' (fun a b => a ≠ b) l)
    (hhead : ∀ x, l.head? = some x → some x ≠ prev) :
    dedupLoop prev l = l := by
  induction l generalizing prev with
  | nil => simp [dedupLoop]
  | cons y ys ih =>
    have hy : ¬(some y = prev) := hhead y rfl
    simp only [dedupLoop, hy, if_false, List.cons.injEq, true_and]
    refine ih (List.Chain'.tail hchain) ?_
    intro x hx
    cases ys with
    | nil => simp at hx
    | cons z zs =>
      simp only [List.head?_cons, Option.some.injEq] at hx
      subst hx
      have := (List.chain'_cons.mp hchain).1
      intro h
      exact this (Option.some.injEq _ _ ▸ h).symm

theorem dedupLoop_none_idem (l : List (List Char)) :
    dedupLoop none (dedupLoop none l) = dedupLoop none l := by
  refine dedupLoop_id (dedupLoop_chain l none).1 ?_
  intro x _
  simp

theorem remove_consecutive_duplicates_idem (t : List Char) :
    remove_consecutive_duplicates (remove_consecutive_duplicates t) =
      remove_consecutive_duplicates t := by
  unfold remove_consecutive_duplicates
  have hne : dedupLoop none (splitNl t) ≠ [] := by
    cases h : splitNl t with
    | nil => exact absurd h (splitNl_ne_nil t)
    | cons x xs =>
      simp only [dedupLoop, Option.some_ne_none x, if_false]
      simp
  have hnl : ∀ p ∈ dedupLoop none (splitNl t), '\n' ∉ p := fun p hp =>
    nl_not_mem_of_mem_splitNl (mem_dedupLoop hp)
  rw [splitNl_joinNl hne hnl, dedupLoop_none_idem]

/-- C7: Consecutive-duplicate-line removal (cleanup step 2) is idempotent:
applying it twice to any content (null included) equals applying it once.
The doubled-punctuation substitution pass (step 1) is NOT idempotent in
general; see the counterexample theorem. -/
theorem C7_remove_consecutive_duplicates_idem (content : Option (List Char)) :
    remove_consecutive_duplicates_opt (remove_consecutive_duplicates_opt content) =
      remove_consecutive_duplicates_opt content := by
  cases content with
  | none => rfl
  | some t =>
    simp only [remove_consecutive_duplicates_opt, Option.some.injEq]
    exact remove_consecutive_duplicates_idem t

/-- C7 counterexample: the doubled-punctuation substitution pass is not
idempotent.  On `"---"` one application yields `"--"` (Python `str.replace`
is left-to-right and non-overlapping), a second application yields `"-"`. -/
theorem C7_clean_duplicate_characters_not_idem :
    clean_duplicate_characters ['-', '-', '-'] = ['-', '-'] ∧
      clean_duplicate_characters (clean_duplicate_characters ['-', '-', '-']) = ['-'] ∧
      clean_duplicate_characters (clean_duplicate_characters ['-', '-', '-']) ≠
        clean_duplicate_characters ['-', '-', '-'] := by
  refine ⟨by decide, by decide, by decide⟩

/-! ### Adjacency invariants used for the restricted idempotence of
`clean_text` -/

/-- No two adjacent equal word characters (what `collapseWordRuns`
normalizes away). -/
def Rw : Char → Char → Prop :=
  fun a b => ¬(a = b ∧ isWordChar a = true)

/-- No two adjacent commas (what `collapseCommas` normalizes away). -/
def Rc : Char → Char → Prop :=
  fun a b => ¬(a = ',' ∧ b = ',')

/-- No two adjacent whitespace characters (what `collapseSpaces`
normalizes away). -/
def Rs : Char → Char → Prop :=
  fun a b => ¬(isWS a = true ∧ isWS b = true)

theorem mem_cwrGo {p : Char} {l : List Char} {a : Char} (h : a ∈ cwrGo p l) : a ∈ l := by
  induction l generalizing p with
  | nil => simp [cwrGo] at h
  | cons d rest ih =>
    simp only [cwrGo] at h
    split at h
    · exact List.mem_cons_of_mem d (ih h)
    · rcases List.mem_cons.mp h with h2 | h2
      · exact h2 ▸ List.mem_cons_self d rest
      · exact List.mem_cons_of_mem d (ih h2)

theorem cwrGo_chain (l : List Char) (p : Char) : List.Chain' Rw (p :: cwrGo p l) := by
  induction l generalizing p with
  | nil => simp [cwrGo]
  | cons d rest ih =>
    simp only [cwrGo]
    split
    · exact ih p
    · rename_i hcond
      rw [Bool.and_eq_true, decide_eq_true_eq] at hcond
      refine List.chain'_cons.mpr ⟨?_, ih d⟩
      intro hpd
      exact hcond ⟨hpd.1.symm, hpd.1 ▸ hpd.2⟩

theorem cwrGo_id {l : List Char} {p : Char} (h : List.Chain' Rw (p :: l)) :
    cwrGo p l = l := by
  induction l generalizing p with
  | nil => rfl
  | cons d rest ih =>
    have hlink : Rw p d := (List.chain'_cons.mp h).1
    have hcond : ¬(d = p ∧ isWordChar p = true) := fun hc => hlink ⟨hc.1.symm, hc.1 ▸ hc.2⟩
    simp only [cwrGo, Bool.and_eq_true, decide_eq_true_eq, if_neg hcond,
      List.cons.injEq, true_and]
    exact ih (List.chain'_cons.mp h).2

theorem mem_collapseWordRuns {l : List Char} {a : Char}
    (h : a ∈ collapseWordRuns l) : a ∈ l := by
  cases l with
  | nil => simp [collapseWordRuns] at h
  | cons c rest =>
    simp only [collapseWordRuns] at h
    rcases List.mem_cons.mp h with h2 | h2
    · exact h2 ▸ List.mem_cons_self c rest
    · exact List.mem_cons_of_mem c (mem_cwrGo h2)

theorem chain_collapseWordRuns (l : List Char) : List.Chain' Rw (collapseWordRuns l) := by
  cases l with
  | nil => simp [collapseWordRuns]
  | cons c rest => exact cwrGo_chain rest c

theorem collapseWordRuns_id {l : List Char} (h : List.Chain' Rw l) :
    collapseWordRuns l = l := by
  cases l with
  | nil => rfl
  | cons c rest =>
    simp only [collapseWordRuns, List.cons.injEq, true_and]
    exact cwrGo_id h

theorem mem_ccGo {p : Char} {l : List Char} {a : Char} (h : a ∈ ccGo p l) : a ∈ l := by
  induction l generalizing p with
  | nil => simp [ccGo] at h
  | cons d rest ih =>
    simp only [ccGo] at h
    split at h
    · exact List.mem_cons_of_mem d (ih h)
    · rcases List.mem_cons.mp h with h2 | h2
      · exact h2 ▸ List.mem_cons_self d rest
      · exact List.mem_cons_of_mem d (ih h2)

theorem ccGo_chain (l : List Char) (p : Char) : List.Chain' Rc (p :: ccGo p l) := by
  induction l generalizing p with
  | nil => simp [ccGo]
  | cons d rest ih =>
    simp only [ccGo]
    split
    · exact ih p
    · rename_i hcond
      rw [Bool.and_eq_true, decide_eq_true_eq, decide_eq_true_eq] at hcond
      refine List.chain'_cons.mpr ⟨?_, ih d⟩
      intro hpd
      exact hcond ⟨hpd.2, hpd.1⟩

theorem ccGo_id {l : List Char} {p : Char} (h : List.Chain' Rc (p :: l)) :
    ccGo p l = l := by
  induction l generalizing p with
  | nil => rfl
  | cons d rest ih =>
    have hlink : Rc p d := (List.chain'_cons.mp h).1
    have hcond : ¬(d = ',' ∧ p = ',') := fun hc => hlink ⟨hc.2, hc.1⟩
    simp only [ccGo, Bool.and_eq_true, decide_eq_true_eq, if_neg hcond,
      List.cons.injEq, true_and]
    exact ih (List.chain'_cons.mp h).2

theorem ccGo_pres (R : Char → Char → Prop) {l : List Char} {p : Char}
    (h : List.Chain' R (p :: l)) : List.Chain' R (p :: ccGo p l) := by
  induction l generalizing p with
  | nil => simp [ccGo]
  | cons d rest ih =>
    simp only [ccGo]
    split
    · rename_i hcond
      rw [Bool.and_eq_true, decide_eq_true_eq, decide_eq_true_eq] at hcond
      have hpd : p = d := hcond.2.trans hcond.1.symm
      refine ih ?_
      have := (List.chain'_cons.mp h).2
      rw [hpd]
      exact this
    · refine List.chain'_cons.mpr ⟨(List.chain'_cons.mp h).1, ih (List.chain'_cons.mp h).2⟩

theorem mem_collapseCommas {l : List Char} {a : Char}
    (h : a ∈ collapseCommas l) : a ∈ l := by
  cases l with
  | nil => simp [collapseCommas] at h
  | cons c rest =>
    simp only [collapseCommas] at h
    rcases List.mem_cons.mp h with h2 | h2
    · exact h2 ▸ List.mem_cons_self c rest
    · exact List.mem_cons_of_mem c (mem_ccGo h2)

theorem chain_collapseCommas (l : List Char) : List.Chain' Rc (collapseCommas l) := by
  cases l with
  | nil => simp [collapseCommas]
  | cons c rest => exact ccGo_chain rest c

theorem collapseCommas_id {l : List Char} (h : List.Chain' Rc l) :
    collapseCommas l = l := by
  cases l with
  | nil => rfl
  | cons c rest =>
    simp only [collapseCommas, List.cons.injEq, true_and]
    exact ccGo_id h

theorem collapseCommas_pres (R : Char → Char → Prop) {l : List Char}
    (h : List.Chain' R l) : List.Chain' R (collapseCommas l) := by
  cases l with
  | nil => simp [collapseCommas]
  | cons c rest => exact ccGo_pres R h

theorem mem_csGo {pw : Bool} {l : List Char} {a : Char} (h : a ∈ csGo pw l) :
    a ∈ l ∨ a = ' ' := by
  induction l generalizing pw with
  | nil => cases pw <;> simp [csGo] at h
  | cons d rest ih =>
    cases pw with
    | true =>
      simp only [csGo] at h
      split at h
      · rcases ih h with h2 | h2
        · exact Or.inl (List.mem_cons_of_mem d h2)
        · exact Or.inr h2
      · rcases List.mem_cons.mp h with h2 | h2
        · exact Or.inl (h2 ▸ List.mem_cons_self d rest)
        · rcases ih h2 with h3 | h3
          · exact Or.inl (List.mem_cons_of_mem d h3)
          · exact Or.inr h3
    | false =>
      simp only [csGo] at h
      split at h
      · rcases List.mem_cons.mp h with h2 | h2
        · exact Or.inr h2
        · rcases ih h2 with h3 | h3
          · exact Or.inl (List.mem_cons_of_mem d h3)
          · exact Or.inr h3
      · rcases List.mem_cons.mp h with h2 | h2
        · exact Or.inl (h2 ▸ List.mem_cons_self d rest)
        · rcases ih h2 with h3 | h3
          · exact Or.inl (List.mem_cons_of_mem d h3)
          · exact Or.inr h3

theorem csGo_ws_mem {pw : Bool} {l : List Char} {c : Char} (h : c ∈ csGo pw l)
    (hws : isWS c = true) : c = ' ' := by
  induction l generalizing pw with
  | nil => cases pw <;> simp [csGo] at h
  | cons d rest ih =>
    cases pw with
    | true =>
      simp only [csGo] at h
      split at h
      · exact ih h
      · rename_i hd
        rcases List.mem_cons.mp h with h2 | h2
        · exact absurd (h2 ▸ hws) (by simpa using hd)
        · exact ih h2
    | false =>
      simp only [csGo] at h
      split at h
      · rcases List.mem_cons.mp h with h2 | h2
        · exact h2
        · exact ih h2
      · rename_i hd
        rcases List.mem_cons.mp h with h2 | h2
        · exact absurd (h2 ▸ hws) (by simpa using hd)
        · exact ih h2

theorem csGo_true_head {l : List Char} {y : Char}
    (h : (csGo true l).head? = some y) : isWS y = false := by
  induction l with
  | nil => simp [csGo] at h
  | cons d rest ih =>
    simp only [csGo] at h
    split at h
    · exact ih h
    · rename_i hd
      simp only [List.head?_cons, Option.some.injEq] at h
      subst h
      simpa using hd

theorem csGo_chain_out (l : List Char) :
    List.Chain' Rs (csGo true l) ∧ List.Chain' Rs (csGo false l) := by
  induction l with
  | nil => simp [csGo]
  | cons d rest ih =>
    by_cases hd : isWS d = true
    · simp only [csGo, hd, if_true]
      refine ⟨ih.1, ?_⟩
      refine List.chain'_cons'.mpr ⟨?_, ih.1⟩
      intro y hy hc
      exact Bool.false_ne_true ((csGo_true_head hy) ▸ hc.2)
    · simp only [csGo, hd, Bool.false_eq_true, if_false]
      have hchain : List.Chain' Rs (d :: csGo false rest) := by
        refine List.chain'_cons'.mpr ⟨?_, ih.2⟩
        intro y _
        exact fun hc => by simp [hc.1] at hd
      exact ⟨hchain, hchain⟩

theorem csGo_pres (R : Char → Char → Prop) (h1 : ∀ a, R ' ' a) (h2 : ∀ a, R a ' ')
    {l : List Char} (h : List.Chain' R l) :
    List.Chain' R (csGo true l) ∧ List.Chain' R (csGo false l) ∧
      (∀ y, (csGo false l).head? = some y → l.head? = some y ∨ y = ' ') := by
  induction l with
  | nil => simp [csGo]
  | cons d rest ih =>
    obtain ⟨iht, ihf, ihh⟩ := ih (List.Chain'.tail h)
    by_cases hd : isWS d = true
    · simp only [csGo, hd, if_true]
      refine ⟨iht, ?_, ?_⟩
      · exact List.chain'_cons'.mpr ⟨fun y _ => h1 y, iht⟩
      · intro y hy
        simp only [List.head?_cons, Option.some.injEq] at hy
        exact Or.inr hy.symm
    · simp only [csGo, hd, Bool.false_eq_true, if_false]
      have hchain : List.Chain' R (d :: csGo false rest) := by
        refine List.chain'_cons'.mpr ⟨?_, ihf⟩
        intro y hy
        rcases ihh y hy with h3 | h3
        · exact (List.chain'_cons'.mp h).1 y h3
        · exact h3 ▸ h2 d
      refine ⟨hchain, hchain, ?_⟩
      intro y hy
      simp only [List.head?_cons, Option.some.injEq] at hy
      exact Or.inl (by simp [hy])

theorem csGo_id {l : List Char} (hmem : ∀ c ∈ l, isWS c = true → c = ' ')
    (hchain : List.Chain' Rs l) :
    csGo false l = l ∧
      ((∀ y, l.head? = some y → isWS y = false) → csGo true l = l) := by
  induction l with
  | nil => simp [csGo]
  | cons d rest ih =>
    obtain ⟨ihf, iht⟩ := ih (fun c hc => hmem c (List.mem_cons_of_mem d hc))
      (List.Chain'.tail hchain)
    by_cases hd : isWS d = true
    · have hdsp : d = ' ' := hmem d (List.mem_cons_self d rest) hd
      have hresthead : ∀ y, rest.head? = some y → isWS y = false := by
        intro y hy
        have := (List.chain'_cons'.mp hchain).1 y hy
        rw [Rs] at this
        by_contra hyw
        exact this ⟨hd, by simpa using hyw⟩
      constructor
      · simp only [csGo, hd, if_true]
        rw [iht hresthead, hdsp]
      · intro hhead
        exact absurd (hhead d rfl) (by simp [hd])
    · have hfalse : csGo false (d :: rest) = d :: rest := by
        simp only [csGo, hd, Bool.false_eq_true, if_false, List.cons.injEq, true_and]
        exact ihf
      refine ⟨hfalse, fun _ => ?_⟩
      simp only [csGo, hd, Bool.false_eq_true, if_false, List.cons.injEq, true_and]
      exact ihf

theorem mem_collapseSpaces {l : List Char} {a : Char} (h : a ∈ collapseSpaces l) :
    a ∈ l ∨ a = ' ' :=
  mem_csGo h

theorem chain_collapseSpaces (l : List Char) : List.Chain' Rs (collapseSpaces l) :=
  (csGo_chain_out l).2

theorem collapseSpaces_ws_mem {l : List Char} {c : Char} (h : c ∈ collapseSpaces l)
    (hws : isWS c = true) : c = ' ' :=
  csGo_ws_mem h hws

theorem collapseSpaces_pres (R : Char → Char → Prop) (h1 : ∀ a, R ' ' a)
    (h2 : ∀ a, R a ' ') {l : List Char} (h : List.Chain' R l) :
    List.Chain' R (collapseSpaces l) :=
  (csGo_pres R h1 h2 h).2.1

theorem collapseSpaces_id {l : List Char} (hmem : ∀ c ∈ l, isWS c = true → c = ' ')
    (hchain : List.Chain' Rs l) : collapseSpaces l = l :=
  (csGo_id hmem hchain).1

theorem dropWhile_head_not (p : Char → Bool) (l : List Char) :
    ∀ x, (l.dropWhile p).head? = some x → p x = false := by
  intro x hx
  have h := List.head?_dropWhile_not p l
  rw [hx] at h
  exact h

theorem dropWhile_eq_self_of_head {p : Char → Bool} {l : List Char}
    (h : ∀ x, l.head? = some x → p x = false) : l.dropWhile p = l := by
  cases l with
  | nil => rfl
  | cons a l2 =>
    have := h a rfl
    simp [List.dropWhile_cons, this]

theorem dropWhile_idem (p : Char → Bool) (l : List Char) :
    (l.dropWhile p).dropWhile p = l.dropWhile p :=
  dropWhile_eq_self_of_head (dropWhile_head_not p l)

theorem mem_stripChars {l : List Char} {a : Char} (h : a ∈ stripChars l) : a ∈ l := by
  unfold stripChars at h
  rw [List.mem_reverse] at h
  have h2 : a ∈ (l.dropWhile isWS).reverse :=
    List.Sublist.mem h (List.dropWhile_suffix isWS).sublist
  rw [List.mem_reverse] at h2
  exact List.Sublist.mem h2 (List.dropWhile_suffix isWS).sublist

theorem chain'_stripChars {R : Char → Char → Prop} (hsym : ∀ a b, R a b → R b a)
    {l : List Char} (h : List.Chain' R l) : List.Chain' R (stripChars l) := by
  unfold stripChars
  have h1 : List.Chain' R (l.dropWhile isWS) :=
    List.Chain'.suffix h (List.dropWhile_suffix isWS)
  have h2 : List.Chain' R ((l.dropWhile isWS).reverse) := by
    rw [List.chain'_reverse]
    exact h1.imp (fun a b hab => hsym a b hab)
  have h3 : List.Chain' R (((l.dropWhile isWS).reverse).dropWhile isWS) :=
    List.Chain'.suffix h2 (List.dropWhile_suffix isWS)
  rw [List.chain'_reverse]
  exact h3.imp (fun a b hab => hsym a b hab)

theorem stripChars_idem (l : List Char) : stripChars (stripChars l) = stripChars l := by
  unfold stripChars
  have hBrev : ((l.dropWhile isWS).reverse.dropWhile isWS).reverse.dropWhile isWS =
      ((l.dropWhile isWS).reverse.dropWhile isWS).reverse := by
    apply dropWhile_eq_self_of_head
    intro x hx
    rw [List.head?_reverse] at hx
    obtain ⟨t, ht⟩ := List.dropWhile_suffix (l := (l.dropWhile isWS).reverse) isWS
    have hlast : (t ++ (l.dropWhile isWS).reverse.dropWhile isWS).getLast? = some x := by
      rw [List.getLast?_append, hx]
      rfl
    rw [ht, List.getLast?_reverse] at hlast
    exact dropWhile_head_not isWS l x hlast
  rw [hBrev, List.reverse_reverse, dropWhile_idem]

theorem replaceDouble_id {c : Char} {l : List Char} (h : c ∉ l) :
    replaceDouble c l = l := by
  induction l with
  | nil => rfl
  | cons x rest ih =>
    cases rest with
    | nil => rfl
    | cons y rest2 =>
      have hx : ¬(x = c) := fun he => h (he ▸ List.mem_cons_self x (y :: rest2))
      have hrest : c ∉ y :: rest2 := fun hm => h (List.mem_cons_of_mem x hm)
      simp only [replaceDouble]
      rw [if_neg (by simp [hx]), ih hrest]

/-! ### Restricted idempotence of `clean_text` -/

theorem symRw : ∀ a b : Char, Rw a b → Rw b a := by
  intro a b hab hc
  exact hab ⟨hc.1.symm, hc.1 ▸ hc.2⟩

theorem symRc : ∀ a b : Char, Rc a b → Rc b a := by
  intro a b hab hc
  exact hab ⟨hc.2, hc.1⟩

theorem symRs : ∀ a b : Char, Rs a b → Rs b a := by
  intro a b hab hc
  exact hab ⟨hc.2, hc.1⟩

theorem rwSpaceLeft : ∀ a : Char, Rw ' ' a := by
  intro a hc
  have : isWordChar ' ' = true := hc.2
  simp [isWordChar] at this

theorem rwSpaceRight : ∀ a : Char, Rw a ' ' := by
  intro a hc
  have : isWordChar ' ' = true := hc.1 ▸ hc.2
  simp [isWordChar] at this

theorem rcSpaceLeft : ∀ a : Char, Rc ' ' a := by
  intro a hc
  exact absurd hc.1 (by decide)

theorem rcSpaceRight : ∀ a : Char, Rc a ' ' := by
  intro a hc
  exact absurd hc.2 (by decide)

theorem clean_text_avoid_idem {x : List Char} (h1 : '-' ∉ x) (h2 : ':' ∉ x)
    (h3 : '.' ∉ x) : clean_text (clean_text x) = clean_text x := by
  have e1 : replaceDouble '-' (collapseWordRuns x) = collapseWordRuns x :=
    replaceDouble_id (fun hm => h1 (mem_collapseWordRuns hm))
  have e2 : replaceDouble ':' (collapseWordRuns x) = collapseWordRuns x :=
    replaceDouble_id (fun hm => h2 (mem_collapseWordRuns hm))
  have e3 : replaceDouble '.' (collapseWordRuns x) = collapseWordRuns x :=
    replaceDouble_id (fun hm => h3 (mem_collapseWordRuns hm))
  have hct : clean_text x =
      stripChars (collapseSpaces (collapseCommas (collapseWordRuns x))) := by
    rw [clean_text, e1, e2, e3]
  have hymem : ∀ a : Char,
      a ∈ stripChars (collapseSpaces (collapseCommas (collapseWordRuns x))) →
        a ∈ x ∨ a = ' ' := by
    intro a ha
    rcases mem_collapseSpaces (mem_stripChars ha) with h4 | h4
    · exact Or.inl (mem_collapseWordRuns (mem_collapseCommas h4))
    · exact Or.inr h4
  have hyw : List.Chain' Rw
      (stripChars (collapseSpaces (collapseCommas (collapseWordRuns x)))) :=
    chain'_stripChars symRw (collapseSpaces_pres Rw rwSpaceLeft rwSpaceRight
      (collapseCommas_pres Rw (chain_collapseWordRuns x)))
  have hyc : List.Chain' Rc
      (stripChars (collapseSpaces (collapseCommas (collapseWordRuns x)))) :=
    chain'_stripChars symRc (collapseSpaces_pres Rc rcSpaceLeft rcSpaceRight
      (chain_collapseCommas (collapseWordRuns x)))
  have hys : List.Chain' Rs
      (stripChars (collapseSpaces (collapseCommas (collapseWordRuns x)))) :=
    chain'_stripChars symRs (chain_collapseSpaces (collapseCommas (collapseWordRuns x)))
  have hyws : ∀ c ∈ stripChars (collapseSpaces (collapseCommas (collapseWordRuns x))),
      isWS c = true → c = ' ' :=
    fun c hc hws => collapseSpaces_ws_mem (mem_stripChars hc) hws
  rw [hct]
  set y := stripChars (collapseSpaces (collapseCommas (collapseWordRuns x))) with hy
  have hy1 : '-' ∉ y := by
    intro hm
    rcases hymem '-' hm with h4 | h4
    · exact h1 h4
    · exact absurd h4 (by decide)
  have hy2 : ':' ∉ y := by
    intro hm
    rcases hymem ':' hm with h4 | h4
    · exact h2 h4
    · exact absurd h4 (by decide)
  have hy3 : '.' ∉ y := by
    intro hm
    rcases hymem '.' hm with h4 | h4
    · exact h3 h4
    · exact absurd h4 (by decide)
  have f0 : collapseWordRuns y = y := collapseWordRuns_id hyw
  have f1 : replaceDouble '-' y = y := replaceDouble_id hy1
  have f2 : replaceDouble ':' y = y := replaceDouble_id hy2
  have f3 : replaceDouble '.' y = y := replaceDouble_id hy3
  have f4 : collapseCommas y = y := collapseCommas_id hyc
  have f5 : collapseSpaces y = y := collapseSpaces_id hyws hys
  rw [clean_text, f0, f1, f2, f3, f4, f5, hy, stripChars_idem]

/-- C3: `clean_text` is total by construction (every string input yields a
result; a null input passes through unchanged), and it is idempotent on
every string containing none of the characters `-` `:` `.` whose doubled
forms it replaces.  Unrestricted idempotence fails; see the counterexample
theorem. -/
theorem C3_clean_text_null_and_restricted_idem :
    clean_text_opt none = none ∧
      ∀ x : List Char, '-' ∉ x → ':' ∉ x → '.' ∉ x →
        clean_text (clean_text x) = clean_text x :=
  ⟨rfl, fun _ h1 h2 h3 => clean_text_avoid_idem h1 h2 h3⟩

/-- C3 witness: the restricted idempotence theorem applied at a concrete
string (with doubled letters, commas and extra whitespace). -/
theorem C3_clean_text_restricted_idem_witness :
    ('-' ∉ "  hola,,  mundoo  ".data) ∧ (':' ∉ "  hola,,  mundoo  ".data) ∧
      ('.' ∉ "  hola,,  mundoo  ".data) ∧
      clean_text (clean_text "  hola,,  mundoo  ".data) =
        clean_text "  hola,,  mundoo  ".data :=
  ⟨by decide, by decide, by decide,
    C3_clean_text_null_and_restricted_idem.2 "  hola,,  mundoo  ".data
      (by decide) (by decide) (by decide)⟩

/-- C3 counterexample: `clean_text` is not idempotent.  Python
`"---".replace("--", "-")` is `"--"` (left-to-right, non-overlapping), so
one application of the normalizer gives `"--"` and a second gives `"-"`. -/
theorem C3_clean_text_not_idem :
    clean_text ['-', '-', '-'] = ['-', '-'] ∧
      clean_text (clean_text ['-', '-', '-']) = ['-'] ∧
      clean_text (clean_text ['-', '-', '-']) ≠ clean_text ['-', '-', '-'] :=
  ⟨by decide, by decide, by decide⟩

/-! ### Line extraction (`process_pdf_in_memory` of
`src/masive_async_convert_pdf_parquet.py` and `extract_line_content` of
`src/pdf_to_parquet.py` — the two loops are line-for-line identical) -/

/-- The fixed `known_combinations` table of two-part title fragments. -/
def known_combinations : List (List Char × List Char) :=
  [("REQUISITOS DE PARTICIPACIÓN Y CRITERIOS DE".data, "EVALUACIÓN".data),
   ("SUMINISTROS REQUERIDOS - ESPECIFICACIONES".data, "TÉCNICAS".data)]

/-- The inner `for part1, part2 in known_combinations` search: the current
and next cleaned lines form a known pair. -/
def isKnownCombo (c nc : List Char) : Bool :=
  known_combinations.any (fun pq => c = pq.1 && nc = pq.2)

/-- The `while i < len(lines)` loop of `process_pdf_in_memory` /
`extract_line_content` over one page's raw lines, carrying the
`page_line_number` counter (incremented once per iteration, before the
merge check).  A merged pair consumes two raw lines in one iteration; an
empty cleaned line consumes its iteration without being emitted. -/
def extract_line_loop (cleanF : List Char → List Char) :
    List (List Char) → Nat → List (List Char × Nat)
  | [], _ => []
  | [l], pos =>
    let c := cleanF (stripChars l)
    if c = [] then [] else [(c, pos + 1)]
  | l :: n :: rest, pos =>
    let c := cleanF (stripChars l)
    let nc := cleanF (stripChars n)
    if isKnownCombo c nc then
      let m := c ++ ' ' :: nc
      (if m = [] then [] else [(m, pos + 1)]) ++ extract_line_loop cleanF rest (pos + 1)
    else
      (if c = [] then [] else [(c, pos + 1)]) ++ extract_line_loop cleanF (n :: rest) (pos + 1)

/-- One emitted line record: cleaned text with its page and in-page
position. -/
structure LineRec where
  text : List Char
  page : Nat
  line : Nat
deriving DecidableEq, Repr

/-- The per-page loop of `process_pdf_in_memory`: pages are enumerated
from `pn`; a page whose extracted text is `None` or empty is skipped, the
rest is split on newlines and run through `extract_line_loop` with the
position counter starting at 0. -/
def process_pdf_pages (cleanF : List Char → List Char) :
    List (Option (List Char)) → Nat → List LineRec
  | [], _ => []
  | p :: rest, pn =>
    (match p with
     | none => []
     | some txt =>
       if txt = [] then []
       else (extract_line_loop cleanF (splitNl txt) 0).map
         (fun cl => { text := cl.1, page := pn, line := cl.2 }))
    ++ process_pdf_pages cleanF rest (pn + 1)

/-- `process_pdf_in_memory`: all pages of one document, enumerated from 1.
The text-extraction collaborator is abstracted as the per-page
`Option (List Char)` input. -/
def process_pdf_in_memory (cleanF : List Char → List Char)
    (pages : List (Option (List Char))) : List LineRec :=
  process_pdf_pages cleanF pages 1

theorem extract_line_loop_pos_lt (cleanF : List Char → List Char)
    (lines : List (List Char)) (pos : Nat) :
    ∀ e ∈ extract_line_loop cleanF lines pos, pos < e.2 := by
  induction lines, pos using extract_line_loop.induct cleanF with
  | case1 pos =>
    intro e he
    simp [extract_line_loop] at he
  | case2 l pos c hc =>
    intro e he
    simp only [extract_line_loop, if_pos hc] at he
    simp at he
  | case3 l pos c hc =>
    intro e he
    simp only [extract_line_loop, if_neg hc, List.mem_singleton] at he
    subst he
    exact Nat.lt_succ_self pos
  | case4 l n rest pos c nc hk ih =>
    intro e he
    simp only [extract_line_loop, if_pos hk, List.mem_append] at he
    rcases he with he | he
    · split at he
      · simp at he
      · simp only [List.mem_singleton] at he
        subst he
        exact Nat.lt_succ_self pos
    · exact Nat.lt_of_succ_lt (ih e he)
  | case5 l n rest pos c nc hk ih =>
    intro e he
    simp only [extract_line_loop, if_neg hk, List.mem_append] at he
    rcases he with he | he
    · split at he
      · simp at he
      · simp only [List.mem_singleton] at he
        subst he
        exact Nat.lt_succ_self pos
    · exact Nat.lt_of_succ_lt (ih e he)

theorem extract_line_loop_pos_sorted (cleanF : List Char → List Char)
    (lines : List (List Char)) (pos : Nat) :
    List.Pairwise (fun a b => a.2 < b.2) (extract_line_loop cleanF lines pos) := by
  induction lines, pos using extract_line_loop.induct cleanF with
  | case1 pos => simp [extract_line_loop]
  | case2 l pos c hc => simp [extract_line_loop, if_pos hc]
  | case3 l pos c hc => simp [extract_line_loop, if_neg hc]
  | case4 l n rest pos c nc hk ih =>
    simp only [extract_line_loop, if_pos hk]
    rw [List.pairwise_append]
    refine ⟨?_, ih, ?_⟩
    · split
      · simp
      · simp
    · intro a ha b hb
      have hb2 : pos + 1 < b.2 := extract_line_loop_pos_lt cleanF rest (pos + 1) b hb
      split at ha
      · simp at ha
      · simp only [List.mem_singleton] at ha
        subst ha
        exact hb2
  | case5 l n rest pos c nc hk ih =>
    simp only [extract_line_loop, if_neg hk]
    rw [List.pairwise_append]
    refine ⟨?_, ih, ?_⟩
    · split
      · simp
      · simp
    · intro a ha b hb
      have hb2 : pos + 1 < b.2 := extract_line_loop_pos_lt cleanF (n :: rest) (pos + 1) b hb
      split at ha
      · simp at ha
      · simp only [List.mem_singleton] at ha
        subst ha
        exact hb2

theorem process_pdf_pages_page_ge (cleanF : List Char → List Char)
    (pages : List (Option (List Char))) (pn : Nat) :
    ∀ r ∈ process_pdf_pages cleanF pages pn, pn ≤ r.page := by
  induction pages generalizing pn with
  | nil => intro r hr; simp [process_pdf_pages] at hr
  | cons p rest ih =>
    intro r hr
    simp only [process_pdf_pages, List.mem_append] at hr
    rcases hr with hr | hr
    · cases p with
      | none => simp at hr
      | some txt =>
        simp only at hr
        split at hr
        · simp at hr
        · rcases List.mem_map.mp hr with ⟨cl, _, hcl⟩
          rw [← hcl]
    · exact Nat.le_of_succ_le (ih (pn + 1) r hr)

/-- Lexicographic strict order on `(page, line)` of line records. -/
def lineLex (a b : LineRec) : Prop :=
  a.page < b.page ∨ (a.page = b.page ∧ a.line < b.line)

theorem process_pdf_pages_pairwise (cleanF : List Char → List Char)
    (pages : List (Option (List Char))) (pn : Nat) :
    List.Pairwise lineLex (process_pdf_pages cleanF pages pn) := by
  induction pages generalizing pn with
  | nil => simp [process_pdf_pages]
  | cons p rest ih =>
    simp only [process_pdf_pages]
    rw [List.pairwise_append]
    refine ⟨?_, ih (pn + 1), ?_⟩
    · cases p with
      | none => simp
      | some txt =>
        simp only
        split
        · simp
        · refine List.Pairwise.map _ ?_ (extract_line_loop_pos_sorted cleanF (splitNl txt) 0)
          intro a b hab
          exact Or.inr ⟨rfl, hab⟩
    · intro a ha b hb
      have hbpage : pn + 1 ≤ b.page := process_pdf_pages_page_ge cleanF rest (pn + 1) b hb
      cases p with
      | none => simp at ha
      | some txt =>
        simp only at ha
        split at ha
        · simp at ha
        · rcases List.mem_map.mp ha with ⟨cl, _, hcl⟩
          left
          rw [← hcl]
          exact Nat.lt_of_succ_le hbpage

/-- C9: for every document and any cleaning function, the emitted line
records have unique `(page, line)` pairs, strictly increasing `line`
within a page, and non-decreasing `page` across the whole sequence. -/
theorem C9_line_record_invariants (cleanF : List Char → List Char)
    (pages : List (Option (List Char))) :
    List.Pairwise (fun a b : LineRec => (a.page, a.line) ≠ (b.page, b.line))
      (process_pdf_in_memory cleanF pages) ∧
    List.Pairwise (fun a b : LineRec => a.page = b.page → a.line < b.line)
      (process_pdf_in_memory cleanF pages) ∧
    List.Pairwise (fun a b : LineRec => a.page ≤ b.page)
      (process_pdf_in_memory cleanF pages) := by
  have h := process_pdf_pages_pairwise cleanF pages 1
  refine ⟨h.imp ?_, h.imp ?_, h.imp ?_⟩
  · intro a b hab
    rcases hab with hlt | ⟨hpe, hlt⟩
    · intro he
      rw [Prod.mk.injEq] at he
      exact Nat.lt_irrefl _ (he.1 ▸ hlt)
    · intro he
      rw [Prod.mk.injEq] at he
      exact Nat.lt_irrefl _ (he.2 ▸ hlt)
  · intro a b hab hpe
    rcases hab with hlt | ⟨_, hlt⟩
    · exact absurd hpe (Nat.ne_of_lt hlt)
    · exact hlt
  · intro a b hab
    rcases hab with hlt | ⟨hpe, _⟩
    · exact Nat.le_of_lt hlt
    · exact Nat.le_of_eq hpe

/-- C4 (amended): the per-page position counter advances once per loop
iteration, not once per raw line consumed.  A raw line that cleans to
empty still advances the counter by one and is not emitted; a merged
known pair consumes two raw lines but advances the counter by ONE, and
the merged record carries the position of its first raw line. -/
theorem C4_position_counter_per_iteration (cleanF : List Char → List Char)
    (l n : List Char) (rest : List (List Char)) (pos : Nat) :
    (cleanF (stripChars l) = [] →
      extract_line_loop cleanF (l :: n :: rest) pos =
        extract_line_loop cleanF (n :: rest) (pos + 1)) ∧
    (isKnownCombo (cleanF (stripChars l)) (cleanF (stripChars n)) = true →
      extract_line_loop cleanF (l :: n :: rest) pos =
        (cleanF (stripChars l) ++ ' ' :: cleanF (stripChars n), pos + 1) ::
          extract_line_loop cleanF rest (pos + 1)) := by
  constructor
  · intro hc
    have hk : isKnownCombo (cleanF (stripChars l)) (cleanF (stripChars n)) = false := by
      rw [hc]
      simp [isKnownCombo, known_combinations]
    simp only [extract_line_loop, hk, Bool.false_eq_true, if_false, if_pos hc,
      List.nil_append]
  · intro hk
    have hm : ¬(cleanF (stripChars l) ++ ' ' :: cleanF (stripChars n) = []) := by
      simp
    simp only [extract_line_loop, hk, if_true, if_neg hm, List.singleton_append]

/-- C4 witness: the amended counter behaviour at concrete inputs — an
empty raw line advances the counter without being emitted, and the known
pair (with trailing whitespace to exercise `strip`) merges into one
record at one position. -/
theorem C4_position_counter_witness :
    (clean_text_masive (stripChars "".data) = [] ∧
      extract_line_loop clean_text_masive ["".data, "X".data] 0 =
        extract_line_loop clean_text_masive ["X".data] 1) ∧
    (isKnownCombo (clean_text_masive (stripChars "REQUISITOS DE PARTICIPACIÓN Y CRITERIOS DE".data))
        (clean_text_masive (stripChars "EVALUACIÓN".data)) = true ∧
      extract_line_loop clean_text_masive
          ["REQUISITOS DE PARTICIPACIÓN Y CRITERIOS DE".data, "EVALUACIÓN".data] 0 =
        (clean_text_masive (stripChars "REQUISITOS DE PARTICIPACIÓN Y CRITERIOS DE".data) ++
            ' ' :: clean_text_masive (stripChars "EVALUACIÓN".data), 1) ::
          extract_line_loop clean_text_masive [] 1) :=
  ⟨⟨by decide,
    (C4_position_counter_per_iteration clean_text_masive "".data "X".data [] 0).1
      (by decide)⟩,
   ⟨by decide,
    (C4_position_counter_per_iteration clean_text_masive
        "REQUISITOS DE PARTICIPACIÓN Y CRITERIOS DE".data "EVALUACIÓN".data [] 0).2
      (by decide)⟩⟩

/-- C4 counterexample: on the raw page lines `[part1, part2, "X"]` the
known pair merges into one record at position 1 and `"X"` is emitted at
position 2 — the counter advanced by one across the merged pair, not by
two (which would have put `"X"` at position 3). -/
theorem C4_merge_counter_counterexample :
    extract_line_loop clean_text_masive
        ["REQUISITOS DE PARTICIPACIÓN Y CRITERIOS DE".data, "EVALUACIÓN".data, "X".data] 0 =
      [("REQUISITOS DE PARTICIPACIÓN Y CRITERIOS DE EVALUACIÓN".data, 1), ("X".data, 2)] ∧
    (extract_line_loop clean_text_masive
        ["REQUISITOS DE PARTICIPACIÓN Y CRITERIOS DE".data, "EVALUACIÓN".data, "X".data] 0).map
        Prod.snd ≠ [1, 3] :=
  ⟨by decide, by decide⟩

/-! ### Outline extraction (`src/masive_async_pdf_outline_extractor.py`) -/

/-- Model of Python `\d` (ASCII restriction). -/
def isDigitChar (c : Char) : Bool :=
  c.isDigit

/-- The `(\d+)_(\d+)` tail of the document-id regex after the year and the
optional minus sign: a maximal non-empty digit run, an underscore, then a
second maximal non-empty digit run (trailing characters allowed, as under
`re.match`). -/
def parse_tail (y sign r : List Char) : List Char × List Char × List Char :=
  if r.takeWhile isDigitChar = [] then ([], [], [])
  else
    match r.dropWhile isDigitChar with
    | '_' :: rest3 =>
      if rest3.takeWhile isDigitChar = [] then ([], [], [])
      else (y, sign ++ r.takeWhile isDigitChar, rest3.takeWhile isDigitChar)
    | _ => ([], [], [])

/-- `parse_document_id`: `re.match(r'(\d{4})_(-?\d+)_(\d+)', filename)`.
`re.match` anchors at the start only, so trailing characters after the
third group are allowed.  On failure every field is the empty string. -/
def parse_document_id (filename : List Char) : List Char × List Char × List Char :=
  match filename with
  | a :: b :: c :: d :: '_' :: rest =>
    if isDigitChar a && isDigitChar b && isDigitChar c && isDigitChar d then
      match rest with
      | '-' :: r => parse_tail [a, b, c, d] ['-'] r
      | r => parse_tail [a, b, c, d] [] r
    else ([], [], [])
  | _ => ([], [], [])

/-- The pattern of claim C10 read as an anchored (full) match: the stem is
exactly a 4-digit year, `_`, an optionally negative integer, `_`, and an
integer, with nothing after it.  (Second definition, following the
claim's words, for comparison with `parse_document_id`.) -/
def stem_full_pattern (filename : List Char) : Bool :=
  match filename with
  | a :: b :: c :: d :: '_' :: rest =>
    isDigitChar a && isDigitChar b && isDigitChar c && isDigitChar d &&
      (let sr : List Char × List Char :=
        match rest with
        | '-' :: r => (['-'], r)
        | r => ([], r)
      let ds := sr.2.takeWhile isDigitChar
      let rest2 := sr.2.dropWhile isDigitChar
      !ds.isEmpty &&
        match rest2 with
        | '_' :: rest3 => !rest3.isEmpty && rest3.all isDigitChar
        | _ => false)
  | _ => false

/-- A prefix of the stem matches `(\d{4})_(-?\d+)_(\d+)` — the condition
under which `re.match` succeeds. -/
def HasStemId (s : List Char) : Prop :=
  ∃ y cat n rest, s = y ++ '_' :: (cat ++ '_' :: (n ++ rest)) ∧
    y.length = 4 ∧ (∀ ch ∈ y, isDigitChar ch = true) ∧
    (∃ ds, (cat = ds ∨ cat = '-' :: ds) ∧ ds ≠ [] ∧ ∀ ch ∈ ds, isDigitChar ch = true) ∧
    n ≠ [] ∧ (∀ ch ∈ n, isDigitChar ch = true)

/-- A bookmark page reference: `item.page` is either already a concrete
integer, or an indirect reference whose resolution
`reader.get_destination_page_number(item)` we model as carried on the
leaf (`none` models a resolution error, which the `except` block turns
into skipping that leaf). -/
inductive PageRef where
  | direct (n : Int)
  | indirect (resolved : Option Int)
deriving DecidableEq, Repr

/-- A node of `reader.outline`: a nested list, a destination with `title`
and `page` attributes, or any other object (ignored by the `hasattr`
guard). -/
inductive OutlineItem where
  | list (children : List OutlineItem)
  | dest (title : List Char) (page : PageRef)
  | other

/-- `page_number = item.page if isinstance(item.page, int) else
reader.get_destination_page_number(item) + 1`; `none` models the raised
and caught per-leaf exception. -/
def resolve_page : PageRef → Option Int
  | .direct n => some n
  | .indirect (some r) => some (r + 1)
  | .indirect none => none

/-- One extracted outline row of `masive_async_pdf_outline_extractor`. -/
structure OutlineEntry where
  document_id : List Char
  year : List Char
  category_id : List Char
  nro_licitacion : List Char
  title : List Char
  page : Int
  depth : Nat
deriving DecidableEq, Repr

mutual

/-- `process_outline_item` of `extract_pdf_outline`: a list recurses into
its children with `depth + 1`; a destination resolves its page, cleans
its title and is emitted only at `depth == 2` with `page = page_number + 1`. -/
def process_outline_item (stem : List Char)
    (det : List Char × List Char × List Char) :
    OutlineItem → Nat → List OutlineEntry
  | .list children, depth => process_outline_list stem det children (depth + 1)
  | .dest title pref, depth =>
    match resolve_page pref with
    | none => []
    | some pn =>
      if depth = 2 then
        [{ document_id := stem, year := det.1, category_id := det.2.1,
           nro_licitacion := det.2.2, title := clean_text_outline title,
           page := pn + 1, depth := depth }]
      else []
  | .other, _ => []

/-- The `for subitem in item` loop of the list branch. -/
def process_outline_list (stem : List Char)
    (det : List Char × List Char × List Char) :
    List OutlineItem → Nat → List OutlineEntry
  | [], _ => []
  | it :: rest, depth =>
    process_outline_item stem det it depth ++ process_outline_list stem det rest depth

end

/-- `extract_pdf_outline`: parse the document identity from the filename
stem, return no entries when the outline is absent or empty, otherwise
walk `process_outline_item(outline)` — the top-level outline is a list,
so its children are visited at depth 1. -/
def extract_pdf_outline (stem : List Char) (outline : List OutlineItem) :
    List OutlineEntry :=
  match outline with
  | [] => []
  | _ => process_outline_list stem (parse_document_id stem) outline 1

mutual

theorem identity_mem_item (stem : List Char) (det : List Char × List Char × List Char) :
    ∀ (it : OutlineItem) (depth : Nat) (e : OutlineEntry),
      e ∈ process_outline_item stem det it depth →
        e.document_id = stem ∧ e.year = det.1 ∧ e.category_id = det.2.1 ∧
          e.nro_licitacion = det.2.2
  | .list children, depth, e, he =>
    identity_mem_list stem det children (depth + 1) e he
  | .dest title pref, depth, e, he => by
    simp only [process_outline_item] at he
    rcases hres : resolve_page pref with _ | pn
    · rw [hres] at he
      simp at he
    · rw [hres] at he
      simp only at he
      split at he
      · simp only [List.mem_singleton] at he
        subst he
        exact ⟨rfl, rfl, rfl, rfl⟩
      · simp at he
  | .other, depth, e, he => by
    simp [process_outline_item] at he

theorem identity_mem_list (stem : List Char) (det : List Char × List Char × List Char) :
    ∀ (l : List OutlineItem) (depth : Nat) (e : OutlineEntry),
      e ∈ process_outline_list stem det l depth →
        e.document_id = stem ∧ e.year = det.1 ∧ e.category_id = det.2.1 ∧
          e.nro_licitacion = det.2.2
  | [], _, e, he => by simp [process_outline_list] at he
  | it :: rest, depth, e, he => by
    simp only [process_outline_list, List.mem_append] at he
    rcases he with he | he
    · exact identity_mem_item stem det it depth e he
    · exact identity_mem_list stem det rest depth e he

end

/-- C2 (amended): at the target depth 2 a leaf whose `page` attribute is
already a concrete integer is emitted with `page = item.page + 1`, but a
leaf resolved through the page-reference capability is emitted with
`page = resolved + 2` — the `+1` added at resolution plus the `+1` of the
domain convention.  A resolution error skips the leaf, and leaves at a
different depth are not emitted. -/
theorem C2_page_offset_by_branch (stem : List Char)
    (det : List Char × List Char × List Char) (title : List Char) (n r : Int)
    (depth : Nat) :
    process_outline_item stem det (.dest title (.direct n)) 2 =
      [{ document_id := stem, year := det.1, category_id := det.2.1,
         nro_licitacion := det.2.2, title := clean_text_outline title,
         page := n + 1, depth := 2 }] ∧
    process_outline_item stem det (.dest title (.indirect (some r))) 2 =
      [{ document_id := stem, year := det.1, category_id := det.2.1,
         nro_licitacion := det.2.2, title := clean_text_outline title,
         page := r + 1 + 1, depth := 2 }] ∧
    process_outline_item stem det (.dest title (.indirect none)) depth = [] ∧
    (depth ≠ 2 → process_outline_item stem det (.dest title (.direct n)) depth = []) := by
  refine ⟨?_, ?_, ?_, ?_⟩
  · simp [process_outline_item, resolve_page]
  · simp [process_outline_item, resolve_page]
  · simp [process_outline_item, resolve_page]
  · intro hd
    simp [process_outline_item, resolve_page, hd]

/-- C2 witness: the four branch behaviours at concrete inputs. -/
theorem C2_page_offset_witness :
    process_outline_item "2021_1_2".data ("2021".data, "1".data, "2".data)
        (.dest "Tema".data (.direct 5)) 2 =
      [{ document_id := "2021_1_2".data, year := "2021".data,
         category_id := "1".data, nro_licitacion := "2".data,
         title := clean_text_outline "Tema".data, page := 6, depth := 2 }] ∧
    process_outline_item "2021_1_2".data ("2021".data, "1".data, "2".data)
        (.dest "Tema".data (.indirect (some 5))) 2 =
      [{ document_id := "2021_1_2".data, year := "2021".data,
         category_id := "1".data, nro_licitacion := "2".data,
         title := clean_text_outline "Tema".data, page := 5 + 1 + 1, depth := 2 }] ∧
    ((1 : Nat) ≠ 2 ∧ process_outline_item "2021_1_2".data ("2021".data, "1".data, "2".data)
        (.dest "Tema".data (.direct 5)) 1 = []) := by
  have h := C2_page_offset_by_branch "2021_1_2".data ("2021".data, "1".data, "2".data)
    "Tema".data 5 5 1
  exact ⟨h.1, h.2.1, by decide, h.2.2.2 (by decide)⟩

/-- C2 counterexample: a depth-2 leaf whose page reference had to be
resolved (resolution returning physical page 5) is emitted with
`page = 7`, not `5 + 1` — the claimed "+1 regardless of branch" fails on
the resolved branch. -/
theorem C2_indirect_page_counterexample :
    (process_outline_item "2021_1_2".data (parse_document_id "2021_1_2".data)
        (OutlineItem.dest "T".data (.indirect (some 5))) 2).map OutlineEntry.page =
      [7] ∧ (7 : Int) ≠ 5 + 1 := by
  constructor
  · simp [process_outline_item, resolve_page]
  · decide

theorem parse_tail_success {y sign r : List Char}
    (h : parse_tail y sign r ≠ ([], [], [])) :
    ∃ ds rest3, r = ds ++ '_' :: rest3 ∧ ds ≠ [] ∧
      (∀ ch ∈ ds, isDigitChar ch = true) ∧
      rest3.takeWhile isDigitChar ≠ [] := by
  unfold parse_tail at h
  split at h
  · exact absurd rfl h
  · rename_i hds
    split at h
    · rename_i rest3 heq
      split at h
      · exact absurd rfl h
      · rename_i hns
        refine ⟨r.takeWhile isDigitChar, rest3, ?_, hds, ?_, hns⟩
        · conv_lhs => rw [← List.takeWhile_append_dropWhile isDigitChar r]
          rw [heq]
        · intro ch hch
          exact List.mem_takeWhile_imp hch
    · exact absurd rfl h

theorem parse_document_id_success {s : List Char}
    (h : parse_document_id s ≠ ([], [], [])) : HasStemId s := by
  unfold parse_document_id at h
  split at h
  case h_2 => exact absurd rfl h
  case h_1 a b c d rest =>
    split at h
    case isFalse => exact absurd rfl h
    case isTrue hdig =>
      rw [Bool.and_eq_true, Bool.and_eq_true, Bool.and_eq_true] at hdig
      obtain ⟨⟨⟨ha, hb⟩, hc⟩, hd⟩ := hdig
      have hy4 : ([a, b, c, d] : List Char).length = 4 := rfl
      have hydig : ∀ ch ∈ ([a, b, c, d] : List Char), isDigitChar ch = true := by
        intro ch hch
        simp only [List.mem_cons, List.not_mem_nil, or_false] at hch
        rcases hch with h1 | h1 | h1 | h1 <;> subst h1 <;> assumption
      split at h
      · rename_i r
        obtain ⟨ds, rest3, hr, hdsne, hdsdig, hnne⟩ := parse_tail_success h
        refine ⟨[a, b, c, d], '-' :: ds, rest3.takeWhile isDigitChar,
          rest3.dropWhile isDigitChar, ?_, hy4, hydig,
          ⟨ds, Or.inr rfl, hdsne, hdsdig⟩, hnne, ?_⟩
        · rw [List.takeWhile_append_dropWhile isDigitChar rest3]
          simp [hr]
        · intro ch hch
          exact List.mem_takeWhile_imp hch
      · rename_i hnotminus
        obtain ⟨ds, rest3, hr, hdsne, hdsdig, hnne⟩ := parse_tail_success h
        refine ⟨[a, b, c, d], ds, rest3.takeWhile isDigitChar,
          rest3.dropWhile isDigitChar, ?_, hy4, hydig,
          ⟨ds, Or.inl rfl, hdsne, hdsdig⟩, hnne, ?_⟩
        · rw [List.takeWhile_append_dropWhile isDigitChar rest3]
          simp [hr]
        · intro ch hch
          exact List.mem_takeWhile_imp hch

theorem HasStemId_length {s : List Char} (h : HasStemId s) : 8 ≤ s.length := by
  obtain ⟨y, cat, n, rest, hs, hy, _, ⟨ds, hds, hdsne, _⟩, hn, _⟩ := h
  subst hs
  have hcat : 1 ≤ cat.length := by
    rcases hds with hcd | hcd <;> subst hcd
    · exact List.length_pos.mpr hdsne
    · simp
  have hn1 : 1 ≤ n.length := List.length_pos.mpr hn
  simp only [List.length_append, List.length_cons, hy]
  omega

/-- C10 (amended): matching is a PREFIX match (`re.match`): whenever no
prefix of the stem matches `(\d{4})_(-?\d+)_(\d+)`, parsing returns empty
strings for all three identity fields (it never raises — the model is a
total function), and the parsed fields, empty or not, are attached to
every outline entry derived from the document. -/
theorem C10_parse_prefix_and_attach (s : List Char) (outline : List OutlineItem) :
    (¬HasStemId s → parse_document_id s = ([], [], [])) ∧
      ∀ e ∈ extract_pdf_outline s outline,
        e.document_id = s ∧ e.year = (parse_document_id s).1 ∧
          e.category_id = (parse_document_id s).2.1 ∧
          e.nro_licitacion = (parse_document_id s).2.2 := by
  constructor
  · intro hno
    by_contra hne
    exact hno (parse_document_id_success hne)
  · intro e he
    unfold extract_pdf_outline at he
    split at he
    · simp at he
    · exact identity_mem_list s (parse_document_id s) outline 1 e he

/-- C10 witness: a stem with no matching prefix yields empty fields, and
on a stem with trailing garbage after a valid prefix the parsed fields
are attached to the extracted entry. -/
theorem C10_parse_prefix_witness :
    parse_document_id "abc".data = ([], [], []) ∧
      ({ document_id := "2021_5_77x".data, year := "2021".data,
         category_id := "5".data, nro_licitacion := "77".data,
         title := "T".data, page := 4, depth := 2 } : OutlineEntry).year =
        (parse_document_id "2021_5_77x".data).1 := by
  constructor
  · refine (C10_parse_prefix_and_attach "abc".data []).1 ?_
    intro hh
    have h8 := HasStemId_length hh
    simp at h8
  · exact ((C10_parse_prefix_and_attach "2021_5_77x".data
      [.list [.dest "T".data (.direct 3)]]).2 _ (by decide)).2.1

/-- C10 counterexample: the stem `"2021_5_123x"` does not match the
claimed pattern as a full (anchored) match, yet `parse_document_id`
returns the non-empty fields of its matching prefix, not empty strings. -/
theorem C10_full_match_counterexample :
    stem_full_pattern "2021_5_123x".data = false ∧
      parse_document_id "2021_5_123x".data = ("2021".data, "5".data, "123".data) ∧
      parse_document_id "2021_5_123x".data ≠ ([], [], []) :=
  ⟨by decide, by decide, by decide⟩

/-! ### Title-line matching (`match_titles_with_lines` of
`src/title_whit_lines.py` and `buscar_linea` of
`src/utils/pdf_proccesor_v2.py`) -/

/-- One outline row of the merged-outlines table (columns not involved in
the merge keys are omitted). -/
structure OutlineMergeRow where
  document_id : List Char
  page : Int
  title : List Char
deriving DecidableEq, Repr

/-- One row of the pdf-lines table as selected for the merge. -/
structure PdfLineRow where
  document_id : List Char
  page_number : Int
  line_text : List Char
  line_number : Int
deriving DecidableEq, Repr

/-- The pandas merge key condition of `match_titles_with_lines`: equal
`document_id`, equal page, and EQUAL cleaned text (exact equality, not
substring containment). -/
def merge_keys_match (o : OutlineMergeRow) (l : PdfLineRow) : Bool :=
  l.document_id == o.document_id && l.page_number == o.page &&
    clean_text l.line_text == clean_text o.title

/-- `match_titles_with_lines`: a left merge of the outline rows with the
pdf-line rows on `(document_id, page, cleaned text)`.  Each outline row
yields one output row per matching line (in line-table order), or a
single row with null `line_number` when no line matches. -/
def match_titles_with_lines (outlines : List OutlineMergeRow)
    (pdf_lines : List PdfLineRow) : List (OutlineMergeRow × Option Int) :=
  outlines.flatMap (fun o =>
    match pdf_lines.filter (fun l => merge_keys_match o l) with
    | [] => [(o, none)]
    | ms => ms.map (fun l => (o, some l.line_number)))

/-- The scanning loop of `buscar_linea`, with `enumerate(lineas_pdf,
start=1)` modelled by the counter `k`. -/
def buscar_linea_go (titulo : List Char) :
    List (List Char × Int) → Nat → Option (Nat × Int)
  | [], _ => none
  | (linea, pagina) :: rest, k =>
    if stripChars linea = titulo then some (k, pagina)
    else buscar_linea_go titulo rest (k + 1)

/-- `buscar_linea`: scan the document's whole `(line, page)` list in
order and return the 1-based global index and page of the first line
whose stripped text equals the title exactly
(`re.fullmatch(re.escape(titulo), linea.strip())`), else `None`. -/
def buscar_linea (lineas_pdf : List (List Char × Int)) (titulo : List Char) :
    Option (Nat × Int) :=
  buscar_linea_go titulo lineas_pdf 1

theorem buscar_linea_go_none {titulo : List Char} :
    ∀ (ls : List (List Char × Int)) (k : Nat),
      buscar_linea_go titulo ls k = none ↔ ∀ p ∈ ls, stripChars p.1 ≠ titulo := by
  intro ls
  induction ls with
  | nil => simp [buscar_linea_go]
  | cons p rest ih =>
    intro k
    obtain ⟨linea, pagina⟩ := p
    simp only [buscar_linea_go]
    split
    · rename_i heq
      simp only [List.mem_cons]
      constructor
      · intro hcontra
        exact absurd hcontra (by simp)
      · intro hall
        exact absurd heq (hall (linea, pagina) (Or.inl rfl))
    · rename_i hne
      rw [ih (k + 1)]
      constructor
      · intro hall q hq
        rcases List.mem_cons.mp hq with hq | hq
        · subst hq
          exact hne
        · exact hall q hq
      · intro hall q hq
        exact hall q (List.mem_cons_of_mem _ hq)

theorem buscar_linea_go_some {titulo : List Char} :
    ∀ (ls : List (List Char × Int)) (k : Nat) (n : Nat) (pg : Int),
      buscar_linea_go titulo ls k = some (n, pg) →
        ∃ pre l post, ls = pre ++ l :: post ∧ n = k + pre.length ∧
          stripChars l.1 = titulo ∧ l.2 = pg ∧
          ∀ q ∈ pre, stripChars q.1 ≠ titulo := by
  intro ls
  induction ls with
  | nil => intro k n pg h; simp [buscar_linea_go] at h
  | cons p rest ih =>
    intro k n pg h
    obtain ⟨linea, pagina⟩ := p
    simp only [buscar_linea_go] at h
    split at h
    · rename_i heq
      simp only [Option.some.injEq, Prod.mk.injEq] at h
      exact ⟨[], (linea, pagina), rest, rfl, by simp [h.1], heq, h.2, by simp⟩
    · rename_i hne
      obtain ⟨pre, l, post, hls, hn, hl, hpg, hpre⟩ := ih (k + 1) n pg h
      refine ⟨(linea, pagina) :: pre, l, post, by rw [hls]; rfl, ?_, hl, hpg, ?_⟩
      · simp only [List.length_cons]
        omega
      · intro q hq
        rcases List.mem_cons.mp hq with hq | hq
        · subst hq
          exact hne
        · exact hpre q hq

/-- C1 (amended): matching uses EXACT equality of cleaned strings, not
substring containment.  `match_titles_with_lines` is a left merge: an
outline row with no equal line on its page yields exactly one row with
null `line_number`, while a row with matching lines yields one output row
per matching line, in line-table order (several rows when several lines
match).  `buscar_linea` scans the document's whole line list and returns
the first exactly-equal line's global 1-based index and page, or none
when no line is equal. -/
theorem C1_matching_exact_equality (o : OutlineMergeRow)
    (pdf_lines : List PdfLineRow) (ls : List (List Char × Int))
    (titulo : List Char) (n : Nat) (pg : Int) :
    ((∀ l ∈ pdf_lines, merge_keys_match o l = false) →
      match_titles_with_lines [o] pdf_lines = [(o, none)]) ∧
    ((∃ l ∈ pdf_lines, merge_keys_match o l = true) →
      match_titles_with_lines [o] pdf_lines =
        (pdf_lines.filter (fun l => merge_keys_match o l)).map
          (fun l => (o, some l.line_number))) ∧
    (buscar_linea ls titulo = none ↔ ∀ p ∈ ls, stripChars p.1 ≠ titulo) ∧
    (buscar_linea ls titulo = some (n, pg) →
      ∃ pre l post, ls = pre ++ l :: post ∧ n = 1 + pre.length ∧
        stripChars l.1 = titulo ∧ l.2 = pg ∧
        ∀ q ∈ pre, stripChars q.1 ≠ titulo) := by
  refine ⟨?_, ?_, buscar_linea_go_none ls 1, fun h => ?_⟩
  · intro hall
    have hf : pdf_lines.filter (fun l => merge_keys_match o l) = [] := by
      rw [List.filter_eq_nil_iff]
      intro a ha
      simp [hall a ha]
    simp [match_titles_with_lines, hf]
  · rintro ⟨l0, hl0, hm0⟩
    have hmem : l0 ∈ pdf_lines.filter (fun l => merge_keys_match o l) :=
      List.mem_filter.mpr ⟨hl0, hm0⟩
    simp only [match_titles_with_lines, List.flatMap_cons, List.flatMap_nil,
      List.append_nil]
    cases hfil : pdf_lines.filter (fun l => merge_keys_match o l) with
    | nil =>
      rw [hfil] at hmem
      cases hmem
    | cons m ms => rfl
  · obtain ⟨pre, l, post, h1, h2, h3, h4, h5⟩ := buscar_linea_go_some ls 1 n pg h
    exact ⟨pre, l, post, h1, by omega, h3, h4, h5⟩

/-- C1 witness: the four behaviours at concrete inputs — no equal line
gives one null row, two equal lines give two rows, and `buscar_linea`
returns none / the first match accordingly. -/
theorem C1_matching_witness :
    match_titles_with_lines [⟨"d1".data, 3, "Datos".data⟩]
        [⟨"d1".data, 3, "Datos del Contacto".data, 7⟩] =
      [(⟨"d1".data, 3, "Datos".data⟩, none)] ∧
    match_titles_with_lines [⟨"d1".data, 3, "Datos".data⟩]
        [⟨"d1".data, 3, "Datos".data, 4⟩, ⟨"d1".data, 3, "Datos".data, 9⟩] =
      ([⟨"d1".data, 3, "Datos".data, 4⟩,
        ⟨"d1".data, 3, "Datos".data, 9⟩] : List PdfLineRow).map
        (fun l => (⟨"d1".data, 3, "Datos".data⟩, some l.line_number)) ∧
    (buscar_linea [("x".data, 1)] "Datos".data = none ↔
      ∀ p ∈ [("x".data, (1 : Int))], stripChars p.1 ≠ "Datos".data) ∧
    (∃ pre l post, ([("x".data, (1 : Int)), ("Datos".data, 2)]) = pre ++ l :: post ∧
      (2 : Nat) = 1 + pre.length ∧ stripChars l.1 = "Datos".data ∧ l.2 = 2 ∧
      ∀ q ∈ pre, stripChars q.1 ≠ "Datos".data) := by
  have h1 := (C1_matching_exact_equality ⟨"d1".data, 3, "Datos".data⟩
    [⟨"d1".data, 3, "Datos del Contacto".data, 7⟩] [] [] 0 0).1 (by decide)
  have h2 := (C1_matching_exact_equality ⟨"d1".data, 3, "Datos".data⟩
    [⟨"d1".data, 3, "Datos".data, 4⟩, ⟨"d1".data, 3, "Datos".data, 9⟩] [] [] 0 0).2.1
    ⟨⟨"d1".data, 3, "Datos".data, 4⟩, by decide, by decide⟩
  have h3 := (C1_matching_exact_equality ⟨"d1".data, 3, "Datos".data⟩ []
    [("x".data, 1)] "Datos".data 0 0).2.2.1
  have h4 := (C1_matching_exact_equality ⟨"d1".data, 3, "Datos".data⟩ []
    [("x".data, 1), ("Datos".data, 2)] "Datos".data 2 2).2.2.2 (by decide)
  refine ⟨h1, ?_, h3, h4⟩
  rw [h2]
  decide

/-- C1 counterexample: containment is not the matching policy.  The
cleaned title `"Datos"` is a substring (infix) of the cleaned line
`"Datos del Contacto"` on the right document and page, yet the merge
produces the null row; and when two lines equal the title, the merge
produces two rows (one per line), not a single first-match row. -/
theorem C1_substring_counterexample :
    List.IsInfix (clean_text "Datos".data) (clean_text "Datos del Contacto".data) ∧
      match_titles_with_lines [⟨"d1".data, 3, "Datos".data⟩]
          [⟨"d1".data, 3, "Datos del Contacto".data, 7⟩] =
        [(⟨"d1".data, 3, "Datos".data⟩, none)] ∧
      match_titles_with_lines [⟨"d1".data, 3, "Datos".data⟩]
          [⟨"d1".data, 3, "Datos".data, 4⟩, ⟨"d1".data, 3, "Datos".data, 9⟩] =
        [(⟨"d1".data, 3, "Datos".data⟩, some 4),
         (⟨"d1".data, 3, "Datos".data⟩, some 9)] :=
  ⟨by decide, by decide, by decide⟩

/-! ### Parquet batch merging (`merge_parquet_files` of
`src/pdf_to_parquet.py`) -/

/-- A persisted batch file: its name, the column names of its schema, and
its rows (abstracted to identifiers). -/
structure BatchFile where
  name : List Char
  cols : List (List Char)
  rows : List Nat
deriving DecidableEq, Repr

/-- The `expected_columns` of the line table. -/
def expected_columns : List (List Char) :=
  ["document_id".data, "page_number".data, "line_number".data,
   "line_text".data, "processed_date".data]

/-- The validation `set(table_columns) == set(expected_columns)`. -/
def cols_set_eq (cols : List (List Char)) : Bool :=
  expected_columns.all (fun c => cols.contains c) &&
    cols.all (fun c => expected_columns.contains c)

/-- What `merge_parquet_files` did: returned early with at most one file,
caught and logged an exception naming the offending input, or wrote the
combined file. -/
inductive MergeOutcome where
  | skipped
  | errorLogged (offending : List Char)
  | merged
deriving DecidableEq, Repr

/-- The name of the combined output file. -/
def combined_documents_name : List Char :=
  "combined_documents".data

/-- `merge_parquet_files`: with at most one file it returns at once with
no validation.  Otherwise files are read in order and the first whose
column set differs from `expected_columns` raises `ValueError` naming
that file; `pa.concat_tables` raises when the validated schemas are not
identical lists.  Both exceptions are caught by the surrounding
`except`, which only logs them — the directory is left unchanged and the
caller continues.  On success the concatenated table is written and the
input files are deleted.  The result is the outcome paired with the
directory contents afterwards. -/
def merge_parquet_files (files : List BatchFile) : MergeOutcome × List BatchFile :=
  if files.length ≤ 1 then (.skipped, files)
  else
    match files.find? (fun f => !cols_set_eq f.cols) with
    | some f => (.errorLogged f.name, files)
    | none =>
      match files with
      | [] => (.skipped, files)
      | f0 :: rest =>
        if rest.all (fun f => f.cols == f0.cols) then
          (.merged, [{ name := combined_documents_name, cols := f0.cols,
                       rows := files.flatMap (fun f => f.rows) }])
        else (.errorLogged "concat_tables".data, files)

/-- C5 (amended): when more than one batch file is present and some
file's schema does not match the declared column set, the merge is
aborted at the first offending file, which is identified; no combined
file is written and no batch file is deleted — the directory is returned
unchanged.  The raised error is caught and logged inside
`merge_parquet_files`, so the run continues rather than halting.  With
one or zero files the merge returns silently without validating
anything. -/
theorem C5_schema_mismatch_logged_not_fatal (files : List BatchFile) :
    (2 ≤ files.length → (∃ f ∈ files, cols_set_eq f.cols = false) →
      ∃ f', f' ∈ files ∧ cols_set_eq f'.cols = false ∧
        merge_parquet_files files = (.errorLogged f'.name, files)) ∧
    (files.length ≤ 1 → merge_parquet_files files = (.skipped, files)) := by
  constructor
  · rintro hlen ⟨f, hf, hbad⟩
    have hsome : (files.find? (fun f => !cols_set_eq f.cols)).isSome := by
      rw [List.find?_isSome]
      exact ⟨f, hf, by simp [hbad]⟩
    obtain ⟨f', hf'⟩ := Option.isSome_iff_exists.mp hsome
    refine ⟨f', List.mem_of_find?_eq_some hf', ?_, ?_⟩
    · have := List.find?_some hf'
      simpa using this
    · unfold merge_parquet_files
      rw [if_neg (by omega), hf']
  · intro hlen
    unfold merge_parquet_files
    rw [if_pos hlen]

/-- C5 witness: a well-formed and a malformed batch file — the merge
logs the malformed file's name and leaves both files on disk; a single
malformed file is not even validated. -/
theorem C5_schema_mismatch_witness :
    ∃ f', f' ∈ [({ name := "batch_0".data, cols := expected_columns,
                   rows := [1, 2] } : BatchFile),
                { name := "batch_1".data, cols := ["wrong".data], rows := [3] }] ∧
      cols_set_eq f'.cols = false ∧
      merge_parquet_files
          [{ name := "batch_0".data, cols := expected_columns, rows := [1, 2] },
           { name := "batch_1".data, cols := ["wrong".data], rows := [3] }] =
        (.errorLogged f'.name,
         [{ name := "batch_0".data, cols := expected_columns, rows := [1, 2] },
          { name := "batch_1".data, cols := ["wrong".data], rows := [3] }]) :=
  (C5_schema_mismatch_logged_not_fatal
    [{ name := "batch_0".data, cols := expected_columns, rows := [1, 2] },
     { name := "batch_1".data, cols := ["wrong".data], rows := [3] }]).1
    (by decide)
    ⟨{ name := "batch_1".data, cols := ["wrong".data], rows := [3] },
      by decide, by decide⟩

/-- C5 counterexample: the merge does not fail loudly.  With a good and a
bad batch the error is merely logged (the function returns normally, the
run continues) and the files survive; with a single bad batch the merge
returns silently with no error at all, although its schema does not
match. -/
theorem C5_not_loud_counterexample :
    merge_parquet_files
        [{ name := "batch_0".data, cols := expected_columns, rows := [1, 2] },
         { name := "batch_1".data, cols := ["wrong".data], rows := [3] }] =
      (.errorLogged "batch_1".data,
       [{ name := "batch_0".data, cols := expected_columns, rows := [1, 2] },
        { name := "batch_1".data, cols := ["wrong".data], rows := [3] }]) ∧
    cols_set_eq ["wrong".data] = false ∧
    merge_parquet_files [{ name := "batch_1".data, cols := ["wrong".data],
                           rows := [3] }] =
      (.skipped, [{ name := "batch_1".data, cols := ["wrong".data], rows := [3] }]) :=
  ⟨by decide, by decide, by decide⟩

/-! ### Corpus cleanup (`main` of `src/list_duplicate_content.py`) -/

/-- `find_duplicate_lines` including the `pd.isna` branch (null content
has no duplicate lines). -/
def find_duplicate_lines_opt : Option (List Char) → Bool
  | none => false
  | some t => find_duplicate_lines t

/-- One row of the sections table (columns the cleanup touches). -/
structure SectionRow where
  document_id : Option (List Char)
  content : Option (List Char)
  content_length : Int
deriving DecidableEq, Repr

/-- The dataframe pipeline of `main`: keep rows with non-null
`document_id`; apply `clean_duplicate_characters` to `content`; save the
rows with consecutive duplicate lines to the report CSV; add a
`cleaned_content` column via `remove_consecutive_duplicates` (the
original `content` column is kept); keep only rows with
`content_length > 0` for the cleaned parquet output.  The result is the
pair (cleaned parquet rows with their `cleaned_content`, report rows). -/
def corpus_cleanup (rows : List SectionRow) :
    List (SectionRow × Option (List Char)) × List SectionRow :=
  let rows1 := rows.filter (fun r => r.document_id.isSome)
  let rows2 := rows1.map (fun r =>
    { r with content := clean_duplicate_characters_opt r.content })
  let duplicate_records := rows2.filter (fun r => find_duplicate_lines_opt r.content)
  let cleaned := rows2.map (fun r => (r, remove_consecutive_duplicates_opt r.content))
  let canonical := cleaned.filter (fun rc => rc.1.content_length > 0)
  (canonical, duplicate_records)

/-- C6 (amended): rows with `content_length <= 0` are excluded from the
cleaned (canonical) output, and the separate side-table is the
consecutive-duplicate-lines report, NOT a zero-length-sections table: a
zero-length section without consecutive duplicate lines appears in no
output at all — it is silently discarded. -/
theorem C6_zero_length_discarded (rows : List SectionRow) (r : SectionRow)
    (c : Option (List Char)) :
    ((r, c) ∈ (corpus_cleanup rows).1 → r.content_length > 0) ∧
    (r ∈ (corpus_cleanup rows).2 → find_duplicate_lines_opt r.content = true) ∧
    (r.content_length ≤ 0 → find_duplicate_lines_opt r.content = false →
      (r, c) ∉ (corpus_cleanup rows).1 ∧ r ∉ (corpus_cleanup rows).2) := by
  refine ⟨?_, ?_, ?_⟩
  · intro hmem
    have := (List.mem_filter.mp hmem).2
    simpa using this
  · intro hmem
    exact (List.mem_filter.mp hmem).2
  · intro hlen hdup
    constructor
    · intro hmem
      have := (List.mem_filter.mp hmem).2
      simp only [decide_eq_true_eq] at this
      omega
    · intro hmem
      rw [(List.mem_filter.mp hmem).2] at hdup
      cases hdup

/-- The zero-length, duplicate-free section row used to exhibit C6. -/
def c6row : SectionRow :=
  { document_id := some "d".data, content := some "abc".data, content_length := 0 }

/-- C6 witness: a section with `content_length = 0` and no duplicate
lines is in neither output. -/
theorem C6_zero_length_witness :
    c6row.content_length ≤ 0 ∧
    find_duplicate_lines_opt c6row.content = false ∧
    (c6row, (none : Option (List Char))) ∉ (corpus_cleanup [c6row]).1 ∧
    c6row ∉ (corpus_cleanup [c6row]).2 := by
  refine ⟨by decide, by decide, ?_⟩
  exact (C6_zero_length_discarded [c6row] c6row none).2.2 (by decide) (by decide)

/-- C6 counterexample: a zero-length section (non-null `document_id`, no
consecutive duplicate lines) is dropped from the canonical output AND
absent from the side-table — both outputs are empty, so it is silently
discarded rather than retained anywhere. -/
theorem C6_silently_discarded_counterexample :
    corpus_cleanup [c6row] = ([], []) := by
  decide

/-! ### Section segmentation (`preprocess_dataframes` and
`get_section_content` of `src/titles_with_content.py`) -/

/-- A `line_number` value in the matched-outline table: after the left
merge it is a float column, so it is either a number or `NaN`. -/
inductive LineNo where
  | num (n : Int)
  | nan
deriving DecidableEq, Repr

/-- Python string comparison (lexicographic by code point), as a Bool
`≤`. -/
def strLe : List Char → List Char → Bool
  | [], _ => true
  | _ :: _, [] => false
  | a :: as, b :: bs => if a = b then strLe as bs else decide (a < b)

/-- The sort-key order on the `line_number` column: numbers in numeric
order, `NaN` after every number (pandas sorts missing values last). -/
def lineNoLe : LineNo → LineNo → Bool
  | .num a, .num b => decide (a ≤ b)
  | .num _, .nan => true
  | .nan, .num _ => false
  | .nan, .nan => true

/-- One row of the matched-outline table (the sort keys plus the title). -/
structure MatchedOutlineRow where
  document_id : List Char
  page : Int
  line_number : LineNo
  title : List Char
deriving DecidableEq, Repr

/-- The `sort_values(['document_id', 'page', 'line_number'])` key order,
with `NaN` line numbers last within their `(document_id, page)` group. -/
def outlineRowLe (a b : MatchedOutlineRow) : Bool :=
  if a.document_id = b.document_id then
    if a.page = b.page then lineNoLe a.line_number b.line_number
    else decide (a.page < b.page)
  else strLe a.document_id b.document_id

/-- The outline-sorting step of `preprocess_dataframes`: pandas multi-key
sorting is a stable sort by the key order above, modelled with the stable
`List.insertionSort`. -/
def preprocess_outlines (outlines : List MatchedOutlineRow) :
    List MatchedOutlineRow :=
  outlines.insertionSort (fun a b => outlineRowLe a b = true)

/-- One line of `pdf_lines_dict[doc_id][page]`. -/
structure PageLine where
  line_number : Int
  line_text : List Char
deriving DecidableEq, Repr

/-- Python `line_num < start_line` where `start_line` may be `NaN`: any
comparison with `NaN` is false. -/
def ltLineNo (n : Int) : LineNo → Bool
  | .num m => decide (n < m)
  | .nan => false

/-- Python `line_num >= end_line` where `end_line` may be `NaN`. -/
def geLineNo (n : Int) : LineNo → Bool
  | .num m => decide (m ≤ n)
  | .nan => false

/-- The inner `for line in page_lines` loop of `get_section_content`:
`continue` skips a start-page line before `start_line`; `break` stops at
an end-page line at or past a non-null `end_line` (`end_line is not None
and line_num >= end_line` — a `NaN` bound never stops anything). -/
def scan_page_lines (page startPage endPage : Int) (startLine : LineNo)
    (endLine : Option LineNo) : List PageLine → List (List Char)
  | [] => []
  | l :: rest =>
    if page = startPage && ltLineNo l.line_number startLine then
      scan_page_lines page startPage endPage startLine endLine rest
    else if page = endPage &&
        (match endLine with
         | none => false
         | some e => geLineNo l.line_number e) then []
    else l.line_text :: scan_page_lines page startPage endPage startLine endLine rest

/-- `get_section_content`: iterate `range(start_page, end_page + 1)`;
a page absent from the dictionary contributes nothing (its line list is
empty). -/
def get_section_content (pagesF : Int → List PageLine)
    (startPage endPage : Int) (startLine : LineNo) (endLine : Option LineNo) :
    List (List Char) :=
  ((List.range (endPage + 1 - startPage).toNat).map
    (fun i => startPage + (i : Int))).flatMap
    (fun page => scan_page_lines page startPage endPage startLine endLine (pagesF page))

theorem strLe_total (a : List Char) : ∀ b, strLe a b = true ∨ strLe b a = true := by
  induction a with
  | nil => intro b; exact Or.inl rfl
  | cons x as ih =>
    intro b
    cases b with
    | nil => exact Or.inr rfl
    | cons y bs =>
      by_cases hxy : x = y
      · subst hxy
        simp only [strLe, if_pos rfl]
        exact ih bs
      · rcases lt_or_gt_of_ne hxy with h | h
        · left
          simp [strLe, hxy, h]
        · right
          have hyx : ¬(y = x) := fun he => hxy he.symm
          simp [strLe, hyx, h]

theorem strLe_trans : ∀ a b c : List Char,
    strLe a b = true → strLe b c = true → strLe a c = true
  | [], _, _, _, _ => rfl
  | _ :: _, [], _, hab, _ => by simp [strLe] at hab
  | _ :: _, _ :: _, [], _, hbc => by simp [strLe] at hbc
  | x :: as, y :: bs, z :: cs, hab, hbc => by
    simp only [strLe] at hab hbc ⊢
    by_cases hxy : x = y
    · subst hxy
      rw [if_pos rfl] at hab
      by_cases hyz : x = z
      · subst hyz
        rw [if_pos rfl] at hbc
        rw [if_pos rfl]
        exact strLe_trans as bs cs hab hbc
      · rw [if_neg hyz] at hbc
        rw [if_neg hyz]
        exact hbc
    · rw [if_neg hxy, decide_eq_true_eq] at hab
      by_cases hyz : y = z
      · subst hyz
        rw [if_neg hxy]
        simp [hab]
      · rw [if_neg hyz, decide_eq_true_eq] at hbc
        have hxz : x < z := lt_trans hab hbc
        rw [if_neg (ne_of_lt hxz)]
        simp [hxz]

theorem lineNoLe_total : ∀ a b : LineNo, lineNoLe a b = true ∨ lineNoLe b a = true
  | .num a, .num b => by
    simp only [lineNoLe, decide_eq_true_eq]
    omega
  | .num _, .nan => Or.inl rfl
  | .nan, .num _ => Or.inr rfl
  | .nan, .nan => Or.inl rfl

theorem lineNoLe_trans : ∀ a b c : LineNo,
    lineNoLe a b = true → lineNoLe b c = true → lineNoLe a c = true
  | .num _, .num _, .num _, hab, hbc => by
    simp only [lineNoLe, decide_eq_true_eq] at hab hbc ⊢
    omega
  | .num _, .num _, .nan, _, _ => rfl
  | .num _, .nan, .num _, _, hbc => by simp [lineNoLe] at hbc
  | .num _, .nan, .nan, _, _ => rfl
  | .nan, .num _, _, hab, _ => by simp [lineNoLe] at hab
  | .nan, .nan, _, _, hbc => hbc

theorem strLe_antisymm : ∀ a b : List Char,
    strLe a b = true → strLe b a = true → a = b
  | [], [], _, _ => rfl
  | [], _ :: _, _, hba => by simp [strLe] at hba
  | _ :: _, [], hab, _ => by simp [strLe] at hab
  | x :: as, y :: bs, hab, hba => by
    simp only [strLe] at hab hba
    by_cases hxy : x = y
    · subst hxy
      rw [if_pos rfl] at hab hba
      rw [strLe_antisymm as bs hab hba]
    · have hyx : ¬(y = x) := fun he => hxy he.symm
      rw [if_neg hxy, decide_eq_true_eq] at hab
      rw [if_neg hyx, decide_eq_true_eq] at hba
      exact absurd hba (not_lt_of_lt hab)

theorem outlineRowLe_total (a b : MatchedOutlineRow) :
    outlineRowLe a b = true ∨ outlineRowLe b a = true := by
  unfold outlineRowLe
  by_cases hdoc : a.document_id = b.document_id
  · rw [if_pos hdoc, if_pos hdoc.symm]
    by_cases hpage : a.page = b.page
    · rw [if_pos hpage, if_pos hpage.symm]
      exact lineNoLe_total _ _
    · have hpage2 : ¬(b.page = a.page) := fun he => hpage he.symm
      rw [if_neg hpage, if_neg hpage2]
      simp only [decide_eq_true_eq]
      omega
  · have hdoc2 : ¬(b.document_id = a.document_id) := fun he => hdoc he.symm
    rw [if_neg hdoc, if_neg hdoc2]
    exact strLe_total _ _

theorem outlineRowLe_trans (a b c : MatchedOutlineRow)
    (hab : outlineRowLe a b = true) (hbc : outlineRowLe b c = true) :
    outlineRowLe a c = true := by
  unfold outlineRowLe at hab hbc ⊢
  by_cases hd1 : a.document_id = b.document_id
  · rw [if_pos hd1] at hab
    by_cases hd2 : b.document_id = c.document_id
    · rw [if_pos hd2] at hbc
      rw [if_pos (hd1.trans hd2)]
      by_cases hp1 : a.page = b.page
      · rw [if_pos hp1] at hab
        by_cases hp2 : b.page = c.page
        · rw [if_pos hp2] at hbc
          rw [if_pos (hp1.trans hp2)]
          exact lineNoLe_trans _ _ _ hab hbc
        · rw [if_neg hp2, decide_eq_true_eq] at hbc
          have hne : ¬(a.page = c.page) := by omega
          rw [if_neg hne]
          simp only [decide_eq_true_eq]
          omega
      · rw [if_neg hp1, decide_eq_true_eq] at hab
        by_cases hp2 : b.page = c.page
        · have hne : ¬(a.page = c.page) := by omega
          rw [if_neg hne]
          simp only [decide_eq_true_eq]
          omega
        · rw [if_neg hp2, decide_eq_true_eq] at hbc
          have hne : ¬(a.page = c.page) := by omega
          rw [if_neg hne]
          simp only [decide_eq_true_eq]
          omega
    · rw [if_neg hd2] at hbc
      have hne : ¬(a.document_id = c.document_id) := fun he => hd2 (hd1.symm.trans he)
      rw [if_neg hne, hd1]
      exact hbc
  · rw [if_neg hd1] at hab
    by_cases hd2 : b.document_id = c.document_id
    · have hne : ¬(a.document_id = c.document_id) := fun he => hd1 (he.trans hd2.symm)
      rw [if_neg hne, ← hd2]
      exact hab
    · rw [if_neg hd2] at hbc
      by_cases hne : a.document_id = c.document_id
      · rw [if_pos hne]
        exfalso
        rw [hne] at hab
        exact hd2 (strLe_antisymm _ _ hbc hab)
      · rw [if_neg hne]
        exact strLe_trans _ _ _ hab hbc

instance : IsTotal MatchedOutlineRow (fun a b => outlineRowLe a b = true) :=
  ⟨outlineRowLe_total⟩

instance : IsTrans MatchedOutlineRow (fun a b => outlineRowLe a b = true) :=
  ⟨outlineRowLe_trans⟩

theorem preprocess_outlines_sorted (rows : List MatchedOutlineRow) :
    List.Pairwise (fun a b => outlineRowLe a b = true) (preprocess_outlines rows) :=
  List.sorted_insertionSort (fun a b => outlineRowLe a b = true) rows

theorem scan_start_nan_eq_one (page startPage endPage : Int)
    (el : Option LineNo) :
    ∀ lines : List PageLine, (∀ l ∈ lines, 1 ≤ l.line_number) →
      scan_page_lines page startPage endPage .nan el lines =
        scan_page_lines page startPage endPage (.num 1) el lines := by
  intro lines
  induction lines with
  | nil => intro _; rfl
  | cons l rest ih =>
    intro h
    have hl : 1 ≤ l.line_number := h l (List.mem_cons_self l rest)
    have hnan : ltLineNo l.line_number LineNo.nan = false := rfl
    have hone : ltLineNo l.line_number (LineNo.num 1) = false := by
      simp only [ltLineNo, decide_eq_false_iff_not]
      omega
    simp only [scan_page_lines, hnan, hone, Bool.and_false]
    rw [ih (fun q hq => h q (List.mem_cons_of_mem l hq))]

theorem scan_end_nan_eq_none (page startPage endPage : Int) (sl : LineNo) :
    ∀ lines : List PageLine,
      scan_page_lines page startPage endPage sl (some .nan) lines =
        scan_page_lines page startPage endPage sl none lines := by
  intro lines
  induction lines with
  | nil => rfl
  | cons l rest ih =>
    have hnan : geLineNo l.line_number LineNo.nan = false := rfl
    simp only [scan_page_lines, hnan, Bool.and_false]
    rw [ih]

theorem flatMap_congr_fun {α β : Type} (f g : α → List β) :
    ∀ l : List α, (∀ a ∈ l, f a = g a) → l.flatMap f = l.flatMap g := by
  intro l
  induction l with
  | nil => intro _; rfl
  | cons x xs ih =>
    intro h
    simp only [List.flatMap_cons]
    rw [h x (List.mem_cons_self x xs), ih (fun a ha => h a (List.mem_cons_of_mem x ha))]

/-- C8 (amended): a null `line_number` is NOT treated as line 1 for
ordering — pandas sorts missing keys last, so within its `(document,
page)` group a null entry comes after every numbered entry.  As a
boundary it imposes no truncation: a null start line includes every line
of the start page (equivalent to a fallback to line 1 when line numbers
are 1-based), and a null end line includes the entire end page (like the
final-section `None` bound). -/
theorem C8_null_line_number_handling (rows : List MatchedOutlineRow)
    (pagesF : Int → List PageLine) (sp ep : Int) (sl : LineNo)
    (el : Option LineNo) :
    List.Pairwise (fun a b => a.document_id = b.document_id →
      a.page = b.page → a.line_number = LineNo.nan → b.line_number = LineNo.nan)
      (preprocess_outlines rows) ∧
    ((∀ p, ∀ l ∈ pagesF p, 1 ≤ l.line_number) →
      get_section_content pagesF sp ep .nan el =
        get_section_content pagesF sp ep (.num 1) el) ∧
    get_section_content pagesF sp ep sl (some .nan) =
      get_section_content pagesF sp ep sl none := by
  refine ⟨?_, ?_, ?_⟩
  · refine (preprocess_outlines_sorted rows).imp ?_
    intro a b hle hdoc hpage hnan
    unfold outlineRowLe at hle
    rw [if_pos hdoc, if_pos hpage, hnan] at hle
    cases hb : b.line_number with
    | num m => rw [hb] at hle; cases hle
    | nan => rfl
  · intro h
    unfold get_section_content
    refine flatMap_congr_fun _ _ _ ?_
    intro page _
    exact scan_start_nan_eq_one page sp ep el (pagesF page) (h page)
  · unfold get_section_content
    refine flatMap_congr_fun _ _ _ ?_
    intro page _
    exact scan_end_nan_eq_none page sp ep sl (pagesF page)

/-- C8 witness: on a concrete page table (page 3 holding lines 1 and 2) a
null start line yields the same section content as start line 1, and a
null end line the same as no end bound. -/
theorem C8_null_boundary_witness :
    (∀ p, ∀ l ∈ (fun p : Int => if p = 3 then
        [({ line_number := 1, line_text := "a".data } : PageLine),
         { line_number := 2, line_text := "b".data }] else []) p,
      1 ≤ l.line_number) ∧
    get_section_content (fun p : Int => if p = 3 then
        [({ line_number := 1, line_text := "a".data } : PageLine),
         { line_number := 2, line_text := "b".data }] else []) 3 4 .nan none =
      get_section_content (fun p : Int => if p = 3 then
        [({ line_number := 1, line_text := "a".data } : PageLine),
         { line_number := 2, line_text := "b".data }] else []) 3 4 (.num 1) none ∧
    get_section_content (fun p : Int => if p = 3 then
        [({ line_number := 1, line_text := "a".data } : PageLine),
         { line_number := 2, line_text := "b".data }] else []) 3 4 (.num 1)
        (some .nan) =
      get_section_content (fun p : Int => if p = 3 then
        [({ line_number := 1, line_text := "a".data } : PageLine),
         { line_number := 2, line_text := "b".data }] else []) 3 4 (.num 1) none := by
  have hlines : ∀ p : Int, ∀ l ∈ (fun p : Int => if p = 3 then
      [({ line_number := 1, line_text := "a".data } : PageLine),
       { line_number := 2, line_text := "b".data }] else []) p, 1 ≤ l.line_number := by
    intro p l hl
    by_cases hp : p = 3
    · rw [hp] at hl
      simp only [if_pos rfl] at hl
      cases hl with
      | head => decide
      | tail _ h2 =>
        cases h2 with
        | head => decide
        | tail _ h3 => cases h3
    · simp [hp] at hl
  have h := C8_null_line_number_handling [] (fun p : Int => if p = 3 then
      [({ line_number := 1, line_text := "a".data } : PageLine),
       { line_number := 2, line_text := "b".data }] else []) 3 4 (.num 1) none
  exact ⟨hlines, h.2.1 hlines, h.2.2⟩

/-- C8 counterexample: two matched entries of the same document and page,
one with a null line number and one at line 5 — sorting places the null
entry LAST, not first as "ordered as if line_number = 1" would demand. -/
theorem C8_nan_sorts_last_counterexample :
    preprocess_outlines
        [⟨"d".data, 3, .nan, "A".data⟩, ⟨"d".data, 3, .num 5, "B".data⟩] =
      [⟨"d".data, 3, .num 5, "B".data⟩, ⟨"d".data, 3, .nan, "A".data⟩] ∧
    preprocess_outlines
        [⟨"d".data, 3, .nan, "A".data⟩, ⟨"d".data, 3, .num 5, "B".data⟩] ≠
      [⟨"d".data, 3, .nan, "A".data⟩, ⟨"d".data, 3, .num 5, "B".data⟩] :=
  ⟨by decide, by decide⟩
